import Mathlib

/-!
Verification of the content-extraction and deduplication core of the
flask-crawl-web repository (services `array_content_service.py` and
`enhanced_content_service.py`), via a shallow embedding in Lean.

Text is modelled as `List Char`.  Python machine floats are modelled as
exact rationals (`Rat`); every float produced by the code under scrutiny
is a single division `2*m/t` whose comparisons against the thresholds
used by the code are unaffected by rounding at the sizes involved.
Python's `str.lower`, `str.strip` and the regex class `\s` are modelled
at ASCII granularity (the data flowing through the services is ASCII
selector/content text).
-/

set_option maxRecDepth 4096

namespace FlaskCrawl

/-- Text is a list of characters. -/
abbrev Str := List Char

/-- Coerce a Lean string literal to the `Str` representation. -/
def str (s : String) : Str := s.toList

/-- ASCII model of Python's `\s` character class / `str.isspace`. -/
def isPySpace (c : Char) : Bool :=
  c = ' ' || c = '\t' || c = '\n' || c = '\r' || c = '\x0b' || c = '\x0c'

/-- Python `str.strip()`: drop leading and trailing whitespace. -/
def pyStrip (s : Str) : Str :=
  ((s.dropWhile isPySpace).reverse.dropWhile isPySpace).reverse

/-- Python `str.lower()` (ASCII model). -/
def pyLower (s : Str) : Str := s.map Char.toLower

/-- Python `str.upper()` (ASCII model). -/
def pyUpper (s : Str) : Str := s.map Char.toUpper

/-- Worker for `collapseWs`: the flag records whether we are inside a
whitespace run whose single replacement space was already emitted. -/
def collapseWsAux : Bool → Str → Str
  | _, [] => []
  | inRun, c :: rest =>
    if isPySpace c then
      if inRun then collapseWsAux true rest
      else ' ' :: collapseWsAux true rest
    else c :: collapseWsAux false rest

/-- Python `re.sub(r'\s+', ' ', s)`: collapse every whitespace run to one space. -/
def collapseWs (s : Str) : Str := collapseWsAux false s

/-!
## Similarity Engine: embedding of `difflib.SequenceMatcher(None, a, b).ratio()`

`_calculate_similarity` (both service files) delegates to the Python
standard library's `SequenceMatcher`.  The embedding below reproduces that
algorithm: the `b2j` index with the autojunk purge of popular elements
(`len(b) >= 200`), the quadratic longest-matching-block search with its
exact tie-breaking and in-order best updates, the non-junk extension
phases (the `bjunk` set is empty because `isjunk=None`, so the junk
extension phases are no-ops and the non-junk extension condition reduces
to plain character equality), and the recursive matching-block total used
by `ratio()`.
-/

/-- Record position `p` of character `c` in the position table (Python's
`b2j.setdefault(elt, []).append(i)`; positions stay in increasing order). -/
def upsertPos (c : Char) (p : Nat) : List (Char × List Nat) → List (Char × List Nat)
  | [] => [(c, [p])]
  | (d, js) :: rest =>
    if d = c then (d, p :: js) :: rest else (d, js) :: upsertPos c p rest

/-- Position table of `b` starting at offset `p`: maps each character to
its positions in increasing order. -/
def buildB2jFrom : Nat → Str → List (Char × List Nat)
  | _, [] => []
  | p, d :: rest => upsertPos d p (buildB2jFrom (p + 1) rest)

/-- Autojunk purge: when `len(b) >= 200`, drop every element occurring more
than `len(b) // 100 + 1` times. -/
def purgePopular (n : Nat) (tbl : List (Char × List Nat)) : List (Char × List Nat) :=
  if 200 ≤ n then tbl.filter (fun e => !(n / 100 + 1 < e.2.length)) else tbl

/-- `SequenceMatcher.__chain_b`: the `b2j` index after the autojunk purge
(`bjunk` is empty because `isjunk=None`). -/
def chainB (b : Str) : List (Char × List Nat) := purgePopular b.length (buildB2jFrom 0 b)

/-- `b2j.get(elt, [])`. -/
def tblLookup (tbl : List (Char × List Nat)) (c : Char) : List Nat :=
  match tbl.find? (fun e => e.1 == c) with
  | some e => e.2
  | none => []

/-- Running best match of the longest-match search. -/
structure FlmState where
  besti : Nat
  bestj : Nat
  bestsize : Nat
  deriving DecidableEq, Repr

/-- The chain length `k = j2len.get(j-1, 0) + 1` read from the previous
row (position `-1` is absent from the dictionary, hence the zero at
`j = 0`). -/
def chainK (oldLen : Nat → Nat) (j : Nat) : Nat :=
  (if j = 0 then 0 else oldLen (j - 1)) + 1

/-- Inner loop of `find_longest_match`: iterate `j` over `b2j[a[i]]`
(ascending), reading the previous row `oldLen` and building the new row.
Because the position list is ascending, Python's `break` at `j >= bhi`
is equivalent to skipping all positions `≥ bhi`. -/
def flmInner (oldLen : Nat → Nat) (i blo bhi : Nat) :
    List Nat → FlmState → (Nat → Nat) → FlmState × (Nat → Nat)
  | [], st, newLen => (st, newLen)
  | j :: rest, st, newLen =>
    if j < blo then flmInner oldLen i blo bhi rest st newLen
    else if bhi ≤ j then (st, newLen)
    else
      let k := chainK oldLen j
      let newLen' := fun j' => if j' = j then k else newLen j'
      let st' := if k > st.bestsize then FlmState.mk (i + 1 - k) (j + 1 - k) k else st
      flmInner oldLen i blo bhi rest st' newLen'

/-- Outer loop of `find_longest_match` over `i in range(alo, ahi)`,
using the precomputed `b2j` position table. -/
def flmOuter (a : Str) (tbl : List (Char × List Nat)) (blo bhi : Nat) :
    List Nat → (Nat → Nat) → FlmState → FlmState
  | [], _, st => st
  | i :: rest, row, st =>
    let res := flmInner row i blo bhi (tblLookup tbl (a.getD i ' ')) st (fun _ => 0)
    flmOuter a tbl blo bhi rest res.2 res.1

/-- `a[i] == b[j]`, false when either index is out of range. -/
def charAtEq (a b : Str) (i j : Nat) : Bool :=
  match a.get? i, b.get? j with
  | some x, some y => x == y
  | _, _ => false

/-- Backward extension phase of `find_longest_match` (non-junk; `bjunk` is
empty since `isjunk=None`).  Structural recursion on `besti`, which the
loop decrements while it runs. -/
def extendBack (a b : Str) (alo blo : Nat) : Nat → Nat → Nat → Nat × Nat × Nat
  | 0, bestj, bestsize => (0, bestj, bestsize)
  | besti + 1, bestj, bestsize =>
    if alo < besti + 1 ∧ blo < bestj ∧ charAtEq a b besti (bestj - 1) then
      extendBack a b alo blo besti (bestj - 1) (bestsize + 1)
    else (besti + 1, bestj, bestsize)

/-- Forward extension phase of `find_longest_match`.  The loop requires
`besti + bestsize < ahi` at every step, so `ahi` iterations of fuel are
always sufficient. -/
def extendFwdAux (a b : Str) (ahi bhi besti bestj : Nat) : Nat → Nat → Nat
  | 0, bestsize => bestsize
  | fuel + 1, bestsize =>
    if besti + bestsize < ahi ∧ bestj + bestsize < bhi ∧
        charAtEq a b (besti + bestsize) (bestj + bestsize) then
      extendFwdAux a b ahi bhi besti bestj fuel (bestsize + 1)
    else bestsize

/-- Forward extension phase entry point. -/
def extendFwd (a b : Str) (ahi bhi besti bestj bestsize : Nat) : Nat :=
  extendFwdAux a b ahi bhi besti bestj (ahi + 1) bestsize

/-- `SequenceMatcher.find_longest_match(alo, ahi, blo, bhi)`. -/
def findLongestMatch (a b : Str) (tbl : List (Char × List Nat))
    (alo ahi blo bhi : Nat) : Nat × Nat × Nat :=
  let st := flmOuter a tbl blo bhi (List.range' alo (ahi - alo)) (fun _ => 0)
      (FlmState.mk alo blo 0)
  let back := extendBack a b alo blo st.besti st.bestj st.bestsize
  (back.1, back.2.1, extendFwd a b ahi bhi back.1 back.2.1 back.2.2)

/-- Total size of the matching blocks found by `get_matching_blocks`,
computed by the same recursive window splitting.  `fuel` bounds the
recursion depth; each recursive call strictly shrinks the `a`-window, so
`a.length + 1` fuel is always sufficient at top level. -/
def matchingTotal (a b : Str) (tbl : List (Char × List Nat)) :
    Nat → Nat → Nat → Nat → Nat → Nat
  | 0, _, _, _, _ => 0
  | fuel + 1, alo, ahi, blo, bhi =>
    let m := findLongestMatch a b tbl alo ahi blo bhi
    let i := m.1
    let j := m.2.1
    let k := m.2.2
    if k = 0 then 0
    else
      k + (if alo < i ∧ blo < j then matchingTotal a b tbl fuel alo i blo j else 0)
        + (if i + k < ahi ∧ j + k < bhi then
            matchingTotal a b tbl fuel (i + k) ahi (j + k) bhi else 0)

/-- `sum(size for block in get_matching_blocks())` for the full strings. -/
def matchesTotal (a b : Str) : Nat :=
  matchingTotal a b (chainB b) (a.length + 1) 0 a.length 0 b.length

/-- `SequenceMatcher.ratio()`: `2*M/T`, or `1.0` when both strings are empty.
The float division `2.0 * matches / length` is modelled as the exact
rational `mkRat (2*M) T` (the same real value). -/
def ratioOf (a b : Str) : Rat :=
  if a.length + b.length = 0 then 1
  else mkRat (2 * (matchesTotal a b : Int)) (a.length + b.length)

/-- `_calculate_similarity(text1, text2)` (both service files): `0.0` when
either string is empty, else the `SequenceMatcher` ratio of the
lower-cased strings. -/
def calculateSimilarity (text1 text2 : Str) : Rat :=
  if text1 = [] ∨ text2 = [] then 0
  else ratioOf (pyLower text1) (pyLower text2)

example : matchesTotal (str "tide") (str "diet") = 1 := by decide
example : calculateSimilarity (str "tide") (str "diet") = mkRat 1 4 := by decide
example : calculateSimilarity (str "diet") (str "tide") = mkRat 1 2 := by decide
example : calculateSimilarity (str "abcd") (str "abcd") = 1 := by decide

/-!
## Duplicate classifier and item-level deduplication (`array_content_service.py`)
-/

/-- Normalisation used by both duplicate classifiers:
`re.sub(r'\s+', ' ', s.strip().lower())`. -/
def normalizeContent (s : Str) : Str := collapseWs (pyLower (pyStrip s))

/-- `ArrayContentExtractor._is_duplicate_content(content, existing_contents,
threshold)`: true when the stripped content is empty or shorter than 20
characters, or some non-blank existing string is an exact
normalized match or has similarity strictly above the threshold. -/
def isDuplicateContent (content : Str) (existing : List Str) (threshold : Rat) : Bool :=
  if pyStrip content = [] ∨ (pyStrip content).length < 20 then true
  else
    let nc := normalizeContent content
    existing.any fun e =>
      pyStrip e ≠ [] &&
      (nc = normalizeContent e || calculateSimilarity nc (normalizeContent e) > threshold)

/-- One extracted item: the `index` and `main_content` keys the
deduplication engine reads and writes, plus the remaining dictionary
entries (sub-selector fields and counts), which it carries through
untouched. -/
structure Item where
  index : Nat
  main_content : Str
  extra : List (Str × Str)
  deriving DecidableEq, Repr

/-- The filtering loop of `_remove_duplicate_array_items`: walk the items
in order, dropping those whose stripped `main_content` is empty or
shorter than 20 characters, keeping an item iff it is not a duplicate of
the contents kept so far (threshold 0.75), and accumulating the kept
stripped contents in `seen`. -/
def dedupePass : List Item → List Str → List Item
  | [], _ => []
  | item :: rest, seen =>
    let mc := pyStrip item.main_content
    if mc = [] ∨ mc.length < 20 then dedupePass rest seen
    else if isDuplicateContent mc seen (mkRat 3 4) = false then
      item :: dedupePass rest (seen ++ [mc])
    else dedupePass rest seen

/-- The re-indexing loop: `item['index'] = i` for the kept items in order,
starting at `n`. -/
def reindexFrom : Nat → List Item → List Item
  | _, [] => []
  | n, x :: xs => { x with index := n } :: reindexFrom (n + 1) xs

/-- `ArrayContentExtractor._remove_duplicate_array_items(items)`. -/
def removeDuplicateArrayItems (items : List Item) : List Item :=
  if items.length ≤ 1 then items
  else reindexFrom 0 (dedupePass items [])

example :
    isDuplicateContent (str "aaaaaaaaaabbbbbbbbbb") [str "aaaaaaaaaacccccccccc"] (mkRat 1 2)
      = false := by decide
example :
    calculateSimilarity (normalizeContent (str "aaaaaaaaaabbbbbbbbbb"))
      (normalizeContent (str "aaaaaaaaaacccccccccc")) = mkRat 1 2 := by decide

/-!
## Section-level deduplication and selector priorities (`enhanced_content_service.py`)
-/

/-- Does `pre` occur at the front of `s`? -/
def leadsWith : Str → Str → Bool
  | [], _ => true
  | _ :: _, [] => false
  | c :: pre, d :: rest => c = d && leadsWith pre rest

/-- Python's substring test `needle in hay` for strings. -/
def strContains (hay needle : Str) : Bool :=
  match hay with
  | [] => needle = []
  | _ :: rest => leadsWith needle hay || strContains rest needle

/-- `EnhancedContentExtractor._is_content_duplicate(content, existing_contents,
threshold)`: like the array classifier but with no minimum-length rule and
with the two containment checks (`x in y` with `len(x) > len(y) * 0.5`,
modelled exactly as `2 * len(x) > len(y)`). -/
def isContentDuplicate (content : Str) (existing : List Str) (threshold : Rat) : Bool :=
  if pyStrip content = [] then true
  else
    let nc := normalizeContent content
    existing.any fun e =>
      pyStrip e ≠ [] &&
      (let ne := normalizeContent e
       nc = ne
       || (strContains ne nc && 2 * nc.length > ne.length)
       || (strContains nc ne && 2 * ne.length > nc.length)
       || calculateSimilarity nc ne > threshold)

/-- One extracted section of the selective content pipeline: the dictionary
key, the `selector` entry and the `content` entry (the other entries play
no role in prioritisation or dedup). -/
structure HtmlSection where
  key : Str
  selector : Str
  content : Str
  deriving DecidableEq, Repr

/-- `get_selector_priority` inside `_prioritize_selectors`: `#` anywhere
means 3, else `.` means 2, else `[` means 2, else 1. -/
def getSelectorPriority (selector : Str) : Nat :=
  if selector.contains '#' then 3
  else if selector.contains '.' then 2
  else if selector.contains '[' then 2
  else 1

/-- Stable insertion into a descending-sorted list: `x` goes in front of the
first element strictly below it, so equal keys keep their original order,
exactly like Python's stable `sorted(..., reverse=True)`. -/
def insertDescBy (gt : α → α → Bool) (x : α) : List α → List α
  | [] => [x]
  | y :: ys => if gt x y then x :: y :: ys else y :: insertDescBy gt x ys

/-- Stable descending sort (same output as Python's stable
`sorted(..., reverse=True)` for the same strict comparison). -/
def sortDescBy (gt : α → α → Bool) (l : List α) : List α :=
  l.foldl (fun acc x => insertDescBy gt x acc) []

/-- Lexicographic strict comparison on `(priority, content length)`. -/
def prioKeyGt (s t : HtmlSection) : Bool :=
  getSelectorPriority s.selector > getSelectorPriority t.selector
  || (getSelectorPriority s.selector = getSelectorPriority t.selector
      && s.content.length > t.content.length)

/-- `EnhancedContentExtractor._prioritize_selectors`: stable sort by
`(selector priority, content length)` descending.  The Python dict result
keeps this iteration order. -/
def prioritizeSelectors (sections : List HtmlSection) : List HtmlSection :=
  sortDescBy prioKeyGt sections

/-- The sequential keep/drop loop of `_remove_nested_content`. -/
def nestedKeep : List HtmlSection → List Str → List HtmlSection
  | [], _ => []
  | s :: rest, used =>
    if isContentDuplicate s.content used (mkRat 3 4) = false then
      s :: nestedKeep rest (used ++ [s.content])
    else nestedKeep rest used

/-- `EnhancedContentExtractor._remove_nested_content`: re-sort the sections
by content length descending (also a stable sort) and keep each section
unless it is a duplicate of the already-kept contents (threshold 0.75). -/
def removeNestedContent (sections : List HtmlSection) : List HtmlSection :=
  nestedKeep (sortDescBy (fun s t => s.content.length > t.content.length) sections) []

/-- The section deduplication stage of `clean_html_with_selectors`
(steps 1 and 2: prioritise when more than one section, then remove
nested/duplicate content when more than one section). -/
def sectionDedupStage (sections : List HtmlSection) : List HtmlSection :=
  let s1 := if sections.length > 1 then prioritizeSelectors sections else sections
  if s1.length > 1 then removeNestedContent s1 else s1

/-!
## Sentence-level deduplication (`enhanced_content_service.py`)
-/

/-- The sentence-accumulation loop of `_remove_duplicate_sentences`:
`cur` is `current_sentence`, `sents` the kept list.  A sentence boundary
is a `.`, `!` or `?` once the stripped current sentence exceeds 10
characters; a boundary sentence or the trailing remainder is appended only
when it is not already present (exact equality). -/
def sentenceLoop : Str → Str → List Str → List Str
  | [], cur, sents =>
    if pyStrip cur ≠ [] then
      if pyStrip cur ∉ sents then sents ++ [pyStrip cur] else sents
    else sents
  | c :: rest, cur, sents =>
    let cur' := cur ++ [c]
    if (c = '.' ∨ c = '!' ∨ c = '?') ∧ (pyStrip cur').length > 10 then
      let s := pyStrip cur'
      if s ≠ [] ∧ s ∉ sents then sentenceLoop rest [] (sents ++ [s])
      else sentenceLoop rest [] sents
    else sentenceLoop rest cur' sents

/-- The list of sentences kept by `_remove_duplicate_sentences`. -/
def keptSentences (text : Str) : List Str := sentenceLoop text [] []

/-- Join with single spaces (`' '.join(sentences)`). -/
def joinSpace (l : List Str) : Str := List.intercalate [' '] l

/-- `EnhancedContentExtractor._remove_duplicate_sentences(text)`. -/
def removeDuplicateSentences (text : Str) : Str :=
  if text = [] ∨ text.length < 50 then text
  else joinSpace (keptSentences text)

/-!
## URL Resolver (`array_content_service.py`, `_make_absolute_url`)

`urllib.parse` is standard-library code, not part of this repository;
`urlparseScheme` and `urljoinM` model the two calls the resolver makes,
per their documented RFC 3986 behaviour.
-/

/-- Split a string at its first `:`, returning the parts before and after. -/
def splitAtColon : Str → Option (Str × Str)
  | [] => none
  | c :: rest =>
    if c = ':' then some ([], rest)
    else
      match splitAtColon rest with
      | some p => some (c :: p.1, p.2)
      | none => none

/-- RFC 3986 scheme characters. -/
def isSchemeChar (c : Char) : Bool :=
  c.isAlpha || c.isDigit || c = '+' || c = '-' || c = '.'

/-- Modelled from the spec: `urlparse(base_url).scheme` of the Python
standard library (not repository code) — the lower-cased text before the
first `:` when it is a well-formed scheme, else the empty string. -/
def urlparseScheme (url : Str) : Str :=
  match splitAtColon url with
  | none => []
  | some p =>
    match p.1 with
    | [] => []
    | c :: _ => if c.isAlpha ∧ p.1.all isSchemeChar then pyLower p.1 else []

/-- Split a string at the first occurrence of `sep`:
`(before, some after)` or `(s, none)` when absent. -/
def splitAtChar (sep : Char) : Str → Str × Option Str
  | [] => ([], none)
  | c :: rest =>
    if c = sep then ([], some rest)
    else
      let p := splitAtChar sep rest
      (c :: p.1, p.2)

/-- Components of a split URL reference. -/
structure UrlParts where
  scheme : Str
  hasNetloc : Bool
  netloc : Str
  path : Str
  query : Option Str
  frag : Option Str
  deriving DecidableEq, Repr

/-- Take the netloc: everything up to the next `/`, `?` or `#`. -/
def takeNetloc (s : Str) : Str × Str :=
  let n := s.takeWhile (fun c => !(c = '/' || c = '?' || c = '#'))
  (n, s.drop n.length)

/-- Modelled from the spec: `urlsplit` of the Python standard library (not
repository code).  Returns `none` on the parse failure Python signals by
raising (`Invalid IPv6 URL`: a bracket in the netloc without the
`[...]` shape). -/
def urlsplitM (u : Str) : Option UrlParts :=
  let sq := splitAtChar '#' u
  let frag := sq.2
  let sq2 := splitAtChar '?' sq.1
  let query := sq2.2
  let rest0 := sq2.1
  let schemeRest : Str × Str :=
    match splitAtColon rest0 with
    | none => ([], rest0)
    | some p =>
      match p.1 with
      | [] => ([], rest0)
      | c :: _ => if c.isAlpha ∧ p.1.all isSchemeChar then (pyLower p.1, p.2) else ([], rest0)
  let scheme := schemeRest.1
  let rest := schemeRest.2
  if leadsWith (str "//") rest then
    let nl := takeNetloc (rest.drop 2)
    if (nl.1.contains '[' || nl.1.contains ']') &&
        !(leadsWith (str "[") nl.1 && nl.1.contains ']') then none
    else some (UrlParts.mk scheme true nl.1 nl.2 query frag)
  else some (UrlParts.mk scheme false [] rest query frag)

/-- RFC 3986 `remove_dot_segments`, on a path split at `/`.  `segs` is the
remaining input (segments), `out` the reversed output stack. -/
def removeDotSegs : List Str → List Str → List Str
  | [], out => out.reverse
  | s :: rest, out =>
    if s = str "." then
      if rest = [] then ((str "") :: out).reverse else removeDotSegs rest out
    else if s = str ".." then
      let out' := match out with
        | [] => []
        | [_] => [[]]
        | _ :: t => t
      if rest = [] then ((str "") :: out').reverse else removeDotSegs rest out'
    else removeDotSegs rest (s :: out)

/-- Split a path at every `/`. -/
def splitSlash : Str → List Str
  | [] => [[]]
  | c :: rest =>
    if c = '/' then [] :: splitSlash rest
    else
      match splitSlash rest with
      | [] => [[c]]
      | s :: ss => (c :: s) :: ss

/-- Join path segments with `/`. -/
def joinSlash (l : List Str) : Str := List.intercalate ['/'] l

/-- Normalise a path by `remove_dot_segments` (only when it is non-empty). -/
def normPath (p : Str) : Str :=
  if p = [] then [] else joinSlash (removeDotSegs (splitSlash p) [])

/-- Reassemble split URL components. -/
def urlunsplitM (p : UrlParts) : Str :=
  (if p.scheme ≠ [] then p.scheme ++ [':'] else [])
  ++ (if p.hasNetloc then str "//" ++ p.netloc else [])
  ++ p.path
  ++ (match p.query with | some q => '?' :: q | none => [])
  ++ (match p.frag with | some f => '#' :: f | none => [])

/-- RFC 3986 path merge: a reference path with no leading `/` is joined to
the base path with its last segment removed. -/
def mergePaths (base : UrlParts) (relPath : Str) : Str :=
  if base.hasNetloc ∧ base.path = [] then '/' :: relPath
  else
    let cut := (base.path.reverse.dropWhile (fun c => c ≠ '/')).reverse
    cut ++ relPath

/-- Modelled from the spec: `urljoin` of the Python standard library (not
repository code), RFC 3986 §5.2 relative resolution; `none` when parsing
either operand fails (Python raises `ValueError`). -/
def urljoinM (base rel : Str) : Option Str :=
  if base = [] then some rel
  else if rel = [] then some base
  else
    match urlsplitM base, urlsplitM rel with
    | some b, some r =>
      if r.scheme ≠ [] ∧ r.scheme ≠ b.scheme then some (urlunsplitM r)
      else
        let scheme := if r.scheme ≠ [] then r.scheme else b.scheme
        if r.hasNetloc then
          some (urlunsplitM (UrlParts.mk scheme true r.netloc (normPath r.path) r.query r.frag))
        else if r.path = [] then
          some (urlunsplitM (UrlParts.mk scheme b.hasNetloc b.netloc b.path
            (match r.query with | some q => some q | none => b.query) r.frag))
        else if leadsWith (str "/") r.path then
          some (urlunsplitM (UrlParts.mk scheme b.hasNetloc b.netloc (normPath r.path)
            r.query r.frag))
        else
          some (urlunsplitM (UrlParts.mk scheme b.hasNetloc b.netloc
            (normPath (mergePaths b r.path)) r.query r.frag))
    | _, _ => none

/-- `ArrayContentExtractor._make_absolute_url(base_url, relative_url)`:
empty reference gives `''`; already `http://`/`https://`-prefixed is
returned unchanged; protocol-relative gets the base scheme prepended;
anything else is resolved by `urljoin`, falling back to the unchanged
reference when that raises. -/
def makeAbsoluteUrl (base rel : Str) : Str :=
  if rel = [] then []
  else if leadsWith (str "http://") rel || leadsWith (str "https://") rel then rel
  else if leadsWith (str "//") rel then urlparseScheme base ++ ':' :: rel
  else
    match urljoinM base rel with
    | some u => u
    | none => rel

/-!
## Array pipeline validation and output formatting
(`ArrayBasedCrawlerService.crawl_array_content`, `_format_array_output`)
-/

/-- The up-front validation sequence of `crawl_array_content`:
URL syntax, then non-empty selector map, then the cap of 5 selectors.
`urlOk` stands for the outcome of `validate_url(url)`; the selector map
is its ordered `(name, config)` entries; `fmt` is the `format_output`
argument, which the function receives but never inspects during
validation.  Returns the error message of the rejecting `CrawlResult`,
or `none` when validation passes. -/
def crawlArrayValidate (urlOk : Bool) (selectors : List (Str × Str)) (fmt : Str) :
    Option Str :=
  if urlOk = false then some (str "Invalid URL format")
  else if selectors = [] then some (str "array_selectors must be a non-empty dictionary")
  else if selectors.length > 5 then some (str "Maximum 5 array selectors allowed")
  else none

/-- One entry of the `arrays` mapping handed to `_format_array_output`. -/
structure ArrayData where
  selName : Str
  selector : Str
  items : List Item
  deriving DecidableEq, Repr

/-- Decimal digits of a natural number (fuel-driven so it evaluates). -/
def natToStrGo : Nat → Nat → Str
  | 0, _ => []
  | fuel + 1, n =>
    if n < 10 then [Char.ofNat (48 + n)]
    else natToStrGo fuel (n / 10) ++ [Char.ofNat (48 + n % 10)]

/-- Decimal rendering of a natural number. -/
def natToStr (n : Nat) : Str := natToStrGo (n + 1) n

/-- Join with newlines (`'\n'.join(parts)`). -/
def joinNl (l : List Str) : Str := List.intercalate ['\n'] l

/-- The extra field lines of one structured item (`item.items()` minus
`index`, `main_content`, `word_count`, `char_count`; scalar fields only,
as carried by `Item.extra`). -/
def itemFieldLines (it : Item) : Str :=
  (it.extra.map fun kv =>
    if kv.2 ≠ [] then '\n' :: (kv.1 ++ str ": " ++ kv.2) else []).flatten

/-- `structured` rendering of `_format_array_output`. -/
def structuredRender (arrays : List ArrayData) : Str :=
  joinNl ((arrays.map fun d =>
    if d.items ≠ [] then
      (str "=== " ++ pyUpper d.selName ++ str " (" ++ natToStr d.items.length
        ++ str " items - order preserved) ===")
      :: ((d.items.zip (List.range d.items.length)).map fun p =>
            str "\n[Item " ++ natToStr (p.2 + 1) ++ str "]\n" ++ p.1.main_content
              ++ itemFieldLines p.1)
      ++ [[]]
    else []).flatten)

/-- `flat` rendering: every non-empty `main_content`, joined by blank lines. -/
def flatRender (arrays : List ArrayData) : Str :=
  List.intercalate (str "\n\n")
    ((arrays.map fun d => (d.items.filter fun it => it.main_content ≠ []).map
      Item.main_content).flatten)

/-- `summary` rendering: one line per array. -/
def summaryRender (arrays : List ArrayData) : Str :=
  joinNl (arrays.map fun d =>
    d.selName ++ str ": " ++ natToStr d.items.length ++ str " items found with selector "
      ++ '\'' :: d.selector ++ '\'' :: str " (order preserved)")

/-- `_format_array_output(arrays, format_type)`: dispatch on the format
name; any unrecognised name falls through to the recursive call
`_format_array_output(arrays, 'structured')`, which is the structured
rendering. -/
def formatArrayOutput (arrays : List ArrayData) (fmt : Str) : Str :=
  if fmt = str "structured" then structuredRender arrays
  else if fmt = str "flat" then flatRender arrays
  else if fmt = str "summary" then summaryRender arrays
  else structuredRender arrays

/-!
## Text Normalizer (`ArrayContentExtractor._extract_text_from_element`)

A DOM subtree is a tree of tags and text nodes.  The Python routine first
takes `element.__copy__()` (a deep copy) and performs every mutation on
that copy; in the embedding the mutation passes are pure functions of the
copied tree and the caller's element is returned unchanged in the
post-state of `extractTextCall`.
-/

/-- A DOM subtree: a tag with attributes and children, or a text node. -/
inductive HNode where
  | tag (name : Str) (attrs : List (Str × Str)) (children : List HNode)
  | textN (s : Str)

/-- The `remove_tags` list of `ArrayContentExtractor`. -/
def removeTagNames : List Str :=
  [str "script", str "style", str "noscript", str "link", str "meta",
   str "form", str "input", str "button", str "select", str "textarea"]

/-- First attribute value for a key (`element.get(key, '')`). -/
def attrGet (attrs : List (Str × Str)) (key : Str) : Str :=
  match attrs.find? (fun kv => kv.1 == key) with
  | some kv => kv.2
  | none => []

mutual
/-- Pass 1: `for tag in element_copy(self.remove_tags): tag.decompose()`. -/
def pruneNode : HNode → Option HNode
  | .textN s => some (.textN s)
  | .tag n a cs => if n ∈ removeTagNames then none else some (.tag n a (pruneList cs))

/-- Pass 1 on a child list. -/
def pruneList : List HNode → List HNode
  | [] => []
  | c :: cs =>
    match pruneNode c with
    | some c' => c' :: pruneList cs
    | none => pruneList cs
end

mutual
/-- Pass 2: replace each `img` with `"[Image: <alt>]"` when the stripped
alt text is longer than 3 characters, else drop it. -/
def imgNode : HNode → Option HNode
  | .textN s => some (.textN s)
  | .tag n a cs =>
    if n = str "img" then
      let alt := pyStrip (attrGet a (str "alt"))
      if alt ≠ [] ∧ alt.length > 3 then some (.textN (str "[Image: " ++ alt ++ str "]"))
      else none
    else some (.tag n a (imgList cs))

/-- Pass 2 on a child list. -/
def imgList : List HNode → List HNode
  | [] => []
  | c :: cs =>
    match imgNode c with
    | some c' => c' :: imgList cs
    | none => imgList cs
end

mutual
/-- All text-node strings of a subtree, in document order. -/
def textFragments : HNode → List Str
  | .textN s => [s]
  | .tag _ _ cs => textFragmentsList cs

/-- Text-node strings of a child list. -/
def textFragmentsList : List HNode → List Str
  | [] => []
  | c :: cs => textFragments c ++ textFragmentsList cs
end

/-- `get_text(strip=True)` with the default empty separator: concatenate
the stripped non-empty fragments. -/
def getTextStrip (node : HNode) : Str :=
  (((textFragments node).map pyStrip).filter (fun s => s ≠ [])).flatten

mutual
/-- Pass 3: replace each `a` with its visible text when non-empty, else
unwrap it in place. -/
def linkNode : HNode → List HNode
  | .textN s => [.textN s]
  | .tag n a cs =>
    if n = str "a" then
      let t := getTextStrip (.tag n a cs)
      if t ≠ [] then [.textN t] else linkList cs
    else [.tag n a (linkList cs)]

/-- Pass 3 on a child list. -/
def linkList : List HNode → List HNode
  | [] => []
  | c :: cs => linkNode c ++ linkList cs
end

/-- `get_text(separator=' ', strip=True)`: stripped non-empty fragments
joined by single spaces. -/
def getTextSep (node : HNode) : Str :=
  joinSpace (((textFragments node).map pyStrip).filter (fun s => s ≠ []))

/-- `re.sub(r'\n\s*\n', '\n\n', s)` — after `collapseWs` the operand
contains no newline, so the faithful scan reduces to finding a newline
followed by whitespace and a newline; implemented with fuel for
evaluation. -/
def nlSubGo : Nat → Str → Str
  | 0, s => s
  | fuel + 1, s =>
    match s with
    | [] => []
    | '\n' :: rest =>
      let run := rest.takeWhile isPySpace
      if run.contains '\n' then
        let lastNl := run.length - ((run.reverse.takeWhile (fun c => c ≠ '\n')).length + 1)
        str "\n\n" ++ nlSubGo fuel (rest.drop (lastNl + 1))
      else '\n' :: nlSubGo fuel rest
    | c :: rest => c :: nlSubGo fuel rest

/-- `re.sub(r'\n\s*\n', '\n\n', s)`. -/
def nlSub (s : Str) : Str := nlSubGo s.length s

/-- `_extract_text_from_element` of `ArrayContentExtractor`, as a pure
function of the deep copy: the three mutation passes, the separator join,
and the whitespace normalisation. -/
def extractTextFromElement (element : HNode) : Str :=
  let copy := element
  let p1 := match pruneNode copy with
    | some n => n
    | none => .tag (str "") [] []
  let p2 := match imgNode p1 with
    | some n => n
    | none => .tag (str "") [] []
  let p3 := match linkNode p2 with
    | [n] => n
    | l => .tag (str "") [] l
  pyStrip (nlSub (collapseWs (getTextSep p3)))

/-- The effectful call `self._extract_text_from_element(element)`: the text
result together with the caller's element in the post-state.  All
mutations act on `element.__copy__()`, so the post-state is the untouched
input. -/
def extractTextCall (element : HNode) : Str × HNode :=
  (extractTextFromElement element, element)

/-!
## Supporting lemmas: item-level deduplication
-/

theorem dedupePass_nil (seen : List Str) : dedupePass [] seen = [] := rfl

theorem dedupePass_cons (item : Item) (rest : List Item) (seen : List Str) :
    dedupePass (item :: rest) seen =
      if pyStrip item.main_content = [] ∨ (pyStrip item.main_content).length < 20 then
        dedupePass rest seen
      else if isDuplicateContent (pyStrip item.main_content) seen (mkRat 3 4) = false then
        item :: dedupePass rest (seen ++ [pyStrip item.main_content])
      else dedupePass rest seen := rfl

theorem dedupePass_sublist (l : List Item) : ∀ seen, List.Sublist (dedupePass l seen) l := by
  induction l with
  | nil => intro seen; simp [dedupePass_nil]
  | cons item rest ih =>
    intro seen
    rw [dedupePass_cons]
    split
    · exact (ih seen).cons item
    · split
      · exact (ih _).cons₂ item
      · exact (ih seen).cons item

theorem dedupePass_length_le (l : List Item) (seen : List Str) :
    (dedupePass l seen).length ≤ l.length :=
  (dedupePass_sublist l seen).length_le

theorem reindexFrom_map_mc (l : List Item) : ∀ n,
    (reindexFrom n l).map Item.main_content = l.map Item.main_content := by
  induction l with
  | nil => intro n; rfl
  | cons x xs ih => intro n; simp [reindexFrom, ih]

theorem reindexFrom_length (l : List Item) : ∀ n, (reindexFrom n l).length = l.length := by
  induction l with
  | nil => intro n; rfl
  | cons x xs ih => intro n; simp [reindexFrom, ih]

theorem reindexFrom_get_index (l : List Item) : ∀ n i x,
    (reindexFrom n l).get? i = some x → x.index = n + i := by
  induction l with
  | nil => intro n i x h; simp [reindexFrom] at h
  | cons y ys ih =>
    intro n i x h
    match i with
    | 0 =>
      simp [reindexFrom] at h
      rw [← h]
      rfl
    | i + 1 =>
      have := ih (n + 1) i x (by simpa [reindexFrom] using h)
      omega

theorem dedupePass_strip_long (l : List Item) : ∀ seen x, x ∈ dedupePass l seen →
    pyStrip x.main_content ≠ [] ∧ 20 ≤ (pyStrip x.main_content).length := by
  induction l with
  | nil => intro seen x hx; simp [dedupePass] at hx
  | cons item rest ih =>
    intro seen x hx
    rw [dedupePass_cons] at hx
    by_cases hshort : pyStrip item.main_content = [] ∨ (pyStrip item.main_content).length < 20
    · rw [if_pos hshort] at hx
      exact ih seen x hx
    · rw [if_neg hshort] at hx
      split at hx
      · rcases List.mem_cons.mp hx with rfl | hx'
        · push_neg at hshort
          exact ⟨hshort.1, hshort.2⟩
        · exact ih _ x hx'
      · exact ih seen x hx

theorem dedupePass_not_dup (l : List Item) :
    ∀ seen i c,
    ((dedupePass l seen).map fun x => pyStrip x.main_content).get? i = some c →
    isDuplicateContent c
      (seen ++ ((dedupePass l seen).map fun x => pyStrip x.main_content).take i)
      (mkRat 3 4) = false := by
  induction l with
  | nil => intro seen i c h; simp [dedupePass_nil] at h
  | cons item rest ih =>
    intro seen i c h
    rw [dedupePass_cons]
    rw [dedupePass_cons] at h
    by_cases hshort : pyStrip item.main_content = [] ∨ (pyStrip item.main_content).length < 20
    · rw [if_pos hshort] at h ⊢
      exact ih seen i c h
    · rw [if_neg hshort] at h ⊢
      by_cases hdup : isDuplicateContent (pyStrip item.main_content) seen (mkRat 3 4) = false
      · rw [if_pos hdup] at h ⊢
        match i with
        | 0 =>
          simp at h
          rw [h] at hdup
          simpa using hdup
        | i + 1 =>
          have := ih (seen ++ [pyStrip item.main_content]) i c (by simpa using h)
          simpa [List.append_assoc] using this
      · rw [if_neg hdup] at h ⊢
        exact ih seen i c h

theorem dedupePass_idem (l : List Item) : ∀ seen,
    dedupePass (dedupePass l seen) seen = dedupePass l seen := by
  induction l with
  | nil => intro seen; rfl
  | cons item rest ih =>
    intro seen
    by_cases hshort : pyStrip item.main_content = [] ∨ (pyStrip item.main_content).length < 20
    · rw [dedupePass_cons, if_pos hshort]
      exact ih seen
    · by_cases hdup : isDuplicateContent (pyStrip item.main_content) seen (mkRat 3 4) = false
      · rw [dedupePass_cons, if_neg hshort, if_pos hdup]
        rw [dedupePass_cons, if_neg hshort, if_pos hdup]
        rw [ih]
      · rw [dedupePass_cons, if_neg hshort, if_neg hdup]
        exact ih seen

theorem dedupePass_reindex_self (l : List Item) : ∀ n seen,
    dedupePass l seen = l → dedupePass (reindexFrom n l) seen = reindexFrom n l := by
  induction l with
  | nil => intro n seen _; rfl
  | cons x xs ih =>
    intro n seen hfix
    by_cases hshort : pyStrip x.main_content = [] ∨ (pyStrip x.main_content).length < 20
    · rw [dedupePass_cons, if_pos hshort] at hfix
      have : (dedupePass xs seen).length ≤ xs.length := dedupePass_length_le xs seen
      have hlen : (dedupePass xs seen).length = (x :: xs).length := by rw [hfix]
      simp at hlen
      omega
    · by_cases hdup : isDuplicateContent (pyStrip x.main_content) seen (mkRat 3 4) = false
      · rw [dedupePass_cons, if_neg hshort, if_pos hdup] at hfix
        have htail : dedupePass xs (seen ++ [pyStrip x.main_content]) = xs :=
          (List.cons_eq_cons.mp hfix).2
        show dedupePass ({ x with index := n } :: reindexFrom (n + 1) xs) seen = _
        rw [dedupePass_cons]
        simp only [show ({ x with index := n } : Item).main_content = x.main_content from rfl]
        rw [if_neg hshort, if_pos hdup]
        rw [ih (n + 1) (seen ++ [pyStrip x.main_content]) htail]
        rfl
      · rw [dedupePass_cons, if_neg hshort, if_neg hdup] at hfix
        have : (dedupePass xs seen).length ≤ xs.length := dedupePass_length_le xs seen
        have hlen : (dedupePass xs seen).length = (x :: xs).length := by rw [hfix]
        simp at hlen
        omega

theorem reindexFrom_reindexFrom (l : List Item) : ∀ n m,
    reindexFrom n (reindexFrom m l) = reindexFrom n l := by
  induction l with
  | nil => intro n m; rfl
  | cons x xs ih => intro n m; simp [reindexFrom, ih]

theorem reindexFrom_mem (l : List Item) : ∀ n x, x ∈ reindexFrom n l →
    ∃ y ∈ l, x.main_content = y.main_content := by
  induction l with
  | nil => intro n x hx; simp [reindexFrom] at hx
  | cons z zs ih =>
    intro n x hx
    rw [reindexFrom] at hx
    rcases List.mem_cons.mp hx with rfl | hx'
    · exact ⟨z, List.mem_cons_self z zs, rfl⟩
    · obtain ⟨y, hy, he⟩ := ih (n + 1) x hx'
      exact ⟨y, List.mem_cons_of_mem z hy, he⟩

/-!
## Claim C1
-/

/-- C1 (amended): for every input of at least two items, item-level
deduplication preserves source order (the surviving contents form a
sublist of the input contents), re-indexes the survivors `0..k-1` in
retained order, and keeps exactly the first member of each duplicate
group (no survivor classifies as a duplicate of the survivors kept before
it at threshold 0.75).  Inputs of at most one item are returned unchanged
and in particular not re-indexed, which is why the two-item hypothesis is
needed. -/
theorem C1_dedup_order (items : List Item) (h2 : 2 ≤ items.length) :
    List.Sublist ((removeDuplicateArrayItems items).map Item.main_content)
      (items.map Item.main_content)
    ∧ (∀ i x, (removeDuplicateArrayItems items).get? i = some x → x.index = i)
    ∧ (∀ i c,
        ((removeDuplicateArrayItems items).map fun x => pyStrip x.main_content).get? i
          = some c →
        isDuplicateContent c
          (((removeDuplicateArrayItems items).map fun x => pyStrip x.main_content).take i)
          (mkRat 3 4) = false) := by
  have hne : ¬ items.length ≤ 1 := by omega
  rw [removeDuplicateArrayItems, if_neg hne]
  have hmap : (reindexFrom 0 (dedupePass items [])).map (fun x => pyStrip x.main_content)
      = (dedupePass items []).map (fun x => pyStrip x.main_content) := by
    rw [show (fun x : Item => pyStrip x.main_content) = pyStrip ∘ Item.main_content from rfl,
      ← List.map_map, reindexFrom_map_mc, List.map_map]
  refine ⟨?_, ?_, ?_⟩
  · rw [reindexFrom_map_mc]
    exact (dedupePass_sublist items []).map Item.main_content
  · intro i x h
    simpa using reindexFrom_get_index _ 0 i x h
  · intro i c h
    rw [hmap] at h ⊢
    simpa using dedupePass_not_dup items [] i c h

/-- C1 counterexample: a single-item list passes through the length guard
unchanged, so the lone surviving item keeps index 1 instead of being
re-indexed to 0 as the claim requires of every input list. -/
theorem C1_counterexample :
    removeDuplicateArrayItems [Item.mk 1 (str "abcdefghijklmnopqrstuvwxyz") []]
      = [Item.mk 1 (str "abcdefghijklmnopqrstuvwxyz") []]
    ∧ (removeDuplicateArrayItems [Item.mk 1 (str "abcdefghijklmnopqrstuvwxyz") []]).map
        Item.index ≠ [0] := by decide

/-- Concrete two-item input for the C1 witness. -/
def c1Items : List Item :=
  [Item.mk 5 (str "abcdefghijklmnopqrstuvwxyz") [],
   Item.mk 7 (str "zyxwvutsrqponmlkjihgfedcba") []]

/-- Witness for `C1_dedup_order` at a concrete two-item input. -/
theorem C1_witness :
    2 ≤ c1Items.length
    ∧ (List.Sublist ((removeDuplicateArrayItems c1Items).map Item.main_content)
        (c1Items.map Item.main_content)
      ∧ (∀ i x, (removeDuplicateArrayItems c1Items).get? i = some x → x.index = i)
      ∧ (∀ i c,
          ((removeDuplicateArrayItems c1Items).map fun x => pyStrip x.main_content).get? i
            = some c →
          isDuplicateContent c
            (((removeDuplicateArrayItems c1Items).map fun x => pyStrip x.main_content).take i)
            (mkRat 3 4) = false)) :=
  ⟨by decide, C1_dedup_order c1Items (by decide)⟩

/-!
## Claim C2
-/

/-- C2 (amended): the array-service duplicate classifier returns true iff
the stripped candidate is empty or shorter than 20 characters, or some
existing string with non-blank content is an exact normalized match or
has normalized similarity strictly greater than the threshold. -/
theorem C2_classifier_iff (content : Str) (existing : List Str) (threshold : Rat) :
    isDuplicateContent content existing threshold = true ↔
      pyStrip content = [] ∨ (pyStrip content).length < 20 ∨
      ∃ e ∈ existing, pyStrip e ≠ [] ∧
        (normalizeContent content = normalizeContent e ∨
         calculateSimilarity (normalizeContent content) (normalizeContent e) > threshold) := by
  by_cases hshort : pyStrip content = [] ∨ (pyStrip content).length < 20
  · rw [isDuplicateContent, if_pos hshort]
    simp only [true_iff]
    tauto
  · rw [isDuplicateContent, if_neg hshort]
    push_neg at hshort
    simp only [List.any_eq_true, Bool.and_eq_true, Bool.or_eq_true, decide_eq_true_eq]
    constructor
    · rintro ⟨e, he, h1, h2⟩
      exact Or.inr (Or.inr ⟨e, he, h1, h2⟩)
    · rintro (h | h | ⟨e, he, h1, h2⟩)
      · exact absurd h hshort.1
      · omega
      · exact ⟨e, he, h1, h2⟩

/-- C2 counterexample: three concrete inputs refuting the claim as stated.
First, a candidate whose similarity to the only existing string is exactly
the threshold 1/2 is classified as not duplicate (the code uses strict
`>`, the claim says `≥`).  Second, a 25-character candidate whose stripped
form has only 10 characters is classified duplicate against no existing
strings at all (the length rule applies to the stripped candidate).
Third, a long candidate against a blank existing string and threshold −1
is classified not duplicate although its similarity 0 is ≥ −1 (blank
existing strings are skipped). -/
theorem C2_counterexample :
    (isDuplicateContent (str "aaaaaaaaaabbbbbbbbbb") [str "aaaaaaaaaacccccccccc"]
        (mkRat 1 2) = false
      ∧ calculateSimilarity (normalizeContent (str "aaaaaaaaaabbbbbbbbbb"))
          (normalizeContent (str "aaaaaaaaaacccccccccc")) ≥ mkRat 1 2
      ∧ 20 ≤ (str "aaaaaaaaaabbbbbbbbbb").length)
    ∧ (isDuplicateContent (str "aaaaaaaaaa" ++ List.replicate 15 ' ') [] 0 = true
      ∧ 20 ≤ (str "aaaaaaaaaa" ++ List.replicate 15 ' ').length)
    ∧ (isDuplicateContent (str "abcdefghijklmnopqrstuvwxyz") [str " "]
        (mkRat (-1) 1) = false
      ∧ calculateSimilarity (normalizeContent (str "abcdefghijklmnopqrstuvwxyz"))
          (normalizeContent (str " ")) ≥ mkRat (-1) 1) := by decide

/-!
## Claim C5
-/

/-- C5 (confirmed): item-level deduplication is idempotent — applying
`_remove_duplicate_array_items` to its own output returns that output
unchanged. -/
theorem C5_dedup_idem (items : List Item) :
    removeDuplicateArrayItems (removeDuplicateArrayItems items)
      = removeDuplicateArrayItems items := by
  by_cases h1 : items.length ≤ 1
  · have e1 : removeDuplicateArrayItems items = items := by
      rw [removeDuplicateArrayItems, if_pos h1]
    rw [e1]
    exact e1
  · have e1 : removeDuplicateArrayItems items = reindexFrom 0 (dedupePass items []) := by
      rw [removeDuplicateArrayItems, if_neg h1]
    rw [e1]
    by_cases h2 : (reindexFrom 0 (dedupePass items [])).length ≤ 1
    · rw [removeDuplicateArrayItems, if_pos h2]
    · rw [removeDuplicateArrayItems, if_neg h2]
      rw [dedupePass_reindex_self _ 0 [] (dedupePass_idem items []), reindexFrom_reindexFrom]

/-!
## Claim C10
-/

/-- C10 (confirmed): the length guard returns any list of at most one item
unchanged (so a lone short item survives), while in any list of two or
more items every surviving item has stripped content of at least 20
characters (so the same short item would be dropped). -/
theorem C10_guard :
    (∀ items : List Item, items.length ≤ 1 → removeDuplicateArrayItems items = items)
    ∧ (∀ items : List Item, 2 ≤ items.length → ∀ x ∈ removeDuplicateArrayItems items,
        pyStrip x.main_content ≠ [] ∧ 20 ≤ (pyStrip x.main_content).length) := by
  constructor
  · intro items h
    rw [removeDuplicateArrayItems, if_pos h]
  · intro items h x hx
    have hne : ¬ items.length ≤ 1 := by omega
    rw [removeDuplicateArrayItems, if_neg hne] at hx
    obtain ⟨y, hy, he⟩ := reindexFrom_mem _ 0 x hx
    rw [he]
    exact dedupePass_strip_long items [] y hy

/-- A short item for the C10 witness. -/
def c10Short : Item := Item.mk 0 (str "tiny") []

/-- A long item for the C10 witness. -/
def c10Long : Item := Item.mk 1 (str "abcdefghijklmnopqrstuvwxyz") []

/-- Witness for `C10_guard`: the short item survives alone but is dropped
from a two-item list. -/
theorem C10_witness :
    removeDuplicateArrayItems [c10Short] = [c10Short]
    ∧ c10Short ∉ removeDuplicateArrayItems [c10Short, c10Long] :=
  ⟨C10_guard.1 [c10Short] (by decide),
   fun hmem => by
     have h := C10_guard.2 [c10Short, c10Long] (by decide) c10Short hmem
     revert h
     decide⟩

/-!
## Claim C6
-/

theorem sentenceLoop_nil (cur : Str) (sents : List Str) :
    sentenceLoop [] cur sents =
      if pyStrip cur ≠ [] then
        if pyStrip cur ∉ sents then sents ++ [pyStrip cur] else sents
      else sents := rfl

theorem sentenceLoop_cons (c : Char) (rest cur : Str) (sents : List Str) :
    sentenceLoop (c :: rest) cur sents =
      if (c = '.' ∨ c = '!' ∨ c = '?') ∧ (pyStrip (cur ++ [c])).length > 10 then
        if pyStrip (cur ++ [c]) ≠ [] ∧ pyStrip (cur ++ [c]) ∉ sents then
          sentenceLoop rest [] (sents ++ [pyStrip (cur ++ [c])])
        else sentenceLoop rest [] sents
      else sentenceLoop rest (cur ++ [c]) sents := rfl

theorem sentenceLoop_nodup : ∀ (t cur : Str) (sents : List Str), sents.Nodup →
    (sentenceLoop t cur sents).Nodup := by
  intro t
  induction t with
  | nil =>
    intro cur sents hnd
    rw [sentenceLoop_nil]
    by_cases h1 : pyStrip cur ≠ []
    · rw [if_pos h1]
      by_cases h2 : pyStrip cur ∉ sents
      · rw [if_pos h2, ← List.concat_eq_append]
        exact List.Nodup.concat h2 hnd
      · rw [if_neg h2]
        exact hnd
    · rw [if_neg h1]
      exact hnd
  | cons c rest ih =>
    intro cur sents hnd
    rw [sentenceLoop_cons]
    by_cases h1 : (c = '.' ∨ c = '!' ∨ c = '?') ∧ (pyStrip (cur ++ [c])).length > 10
    · rw [if_pos h1]
      by_cases h2 : pyStrip (cur ++ [c]) ≠ [] ∧ pyStrip (cur ++ [c]) ∉ sents
      · rw [if_pos h2]
        refine ih [] _ ?_
        rw [← List.concat_eq_append]
        exact List.Nodup.concat h2.2 hnd
      · rw [if_neg h2]
        exact ih [] sents hnd
    · rw [if_neg h1]
      exact ih (cur ++ [c]) sents hnd

/-- C6 (amended): `_remove_duplicate_sentences` appends a candidate
sentence only when it is not exactly equal to some previously kept
sentence — no similarity scoring is involved — so the kept sentences are
pairwise distinct. -/
theorem C6_sentence_dedup (text : Str) : (keptSentences text).Nodup :=
  sentenceLoop_nodup text [] [] List.nodup_nil

/-- C6 counterexample: a 53-character text with two nearly identical
sentences.  Both are kept (they differ in one letter), although their
similarity is 25/26 ≥ 0.8, refuting the claim that a candidate with
similarity ≥ 0.8 to a kept sentence is omitted. -/
theorem C6_counterexample :
    keptSentences (str "abcdefghijklmnopqrstuvw x. abcdefghijklmnopqrstuvw y.")
      = [str "abcdefghijklmnopqrstuvw x.", str "abcdefghijklmnopqrstuvw y."]
    ∧ calculateSimilarity (str "abcdefghijklmnopqrstuvw y.")
        (str "abcdefghijklmnopqrstuvw x.") = mkRat 25 26
    ∧ mkRat 25 26 ≥ mkRat 4 5
    ∧ 50 ≤ (str "abcdefghijklmnopqrstuvw x. abcdefghijklmnopqrstuvw y.").length := by decide

/-!
## Claim C7
-/

/-- Modelled from the claim as stated: the three resolution rules in
order, with no rule for the empty reference (an empty reference falls to
the relative-resolution rule, which per RFC 3986 / `urljoin` yields the
base URL). -/
def toAbsoluteClaimed (base rel : Str) : Str :=
  if leadsWith (str "http://") rel || leadsWith (str "https://") rel then rel
  else if leadsWith (str "//") rel then urlparseScheme base ++ ':' :: rel
  else
    match urljoinM base rel with
    | some u => u
    | none => rel

/-- C7 (amended): URL resolution applies these rules in order — an empty
reference yields the empty string; a reference already starting with
`http://` or `https://` is returned unchanged; a protocol-relative
reference gets the base URL's scheme prepended with a `:`; any other
reference is resolved as a standard relative reference against the base
URL, and on a parse failure the input reference is returned unchanged (no
exception escapes, the function is total). -/
theorem C7_url_rules (base rel : Str) :
    (rel = [] → makeAbsoluteUrl base rel = [])
    ∧ (rel ≠ [] →
        (leadsWith (str "http://") rel || leadsWith (str "https://") rel) = true →
        makeAbsoluteUrl base rel = rel)
    ∧ (rel ≠ [] →
        (leadsWith (str "http://") rel || leadsWith (str "https://") rel) = false →
        leadsWith (str "//") rel = true →
        makeAbsoluteUrl base rel = urlparseScheme base ++ ':' :: rel)
    ∧ (rel ≠ [] →
        (leadsWith (str "http://") rel || leadsWith (str "https://") rel) = false →
        leadsWith (str "//") rel = false →
        makeAbsoluteUrl base rel =
          (match urljoinM base rel with
           | some u => u
           | none => rel)) := by
  refine ⟨?_, ?_, ?_, ?_⟩
  · intro h
    rw [makeAbsoluteUrl, if_pos h]
  · intro hne h
    rw [makeAbsoluteUrl, if_neg hne, if_pos h]
  · intro hne h1 h2
    rw [makeAbsoluteUrl, if_neg hne, if_pos h2]
    simp [h1]
  · intro hne h1 h2
    rw [makeAbsoluteUrl, if_neg hne]
    simp [h1, h2]

/-- C7 counterexample: for the empty reference the code returns the empty
string, while the claim's rules (standard relative resolution) give the
base URL back. -/
theorem C7_counterexample :
    makeAbsoluteUrl (str "http://example.com/x") [] = []
    ∧ toAbsoluteClaimed (str "http://example.com/x") [] = str "http://example.com/x"
    ∧ makeAbsoluteUrl (str "http://example.com/x") []
        ≠ toAbsoluteClaimed (str "http://example.com/x") [] := by decide

/-- Witness for `C7_url_rules`: each rule instantiated at a concrete pair. -/
theorem C7_witness :
    makeAbsoluteUrl (str "http://example.com/x") [] = []
    ∧ makeAbsoluteUrl (str "http://example.com/x") (str "https://a/b") = str "https://a/b"
    ∧ makeAbsoluteUrl (str "http://example.com/x") (str "//cdn.com/i.png")
        = urlparseScheme (str "http://example.com/x") ++ ':' :: str "//cdn.com/i.png"
    ∧ makeAbsoluteUrl (str "http://example.com/x") (str "img/a.jpg")
        = (match urljoinM (str "http://example.com/x") (str "img/a.jpg") with
           | some u => u
           | none => str "img/a.jpg") :=
  ⟨(C7_url_rules (str "http://example.com/x") []).1 rfl,
   (C7_url_rules (str "http://example.com/x") (str "https://a/b")).2.1 (by decide) (by decide),
   (C7_url_rules (str "http://example.com/x") (str "//cdn.com/i.png")).2.2.1 (by decide)
     (by decide) (by decide),
   (C7_url_rules (str "http://example.com/x") (str "img/a.jpg")).2.2.2 (by decide)
     (by decide) (by decide)⟩

/-!
## Claim C8
-/

/-- C8 (amended): the service-level validation of `crawl_array_content`
never inspects the output format (its outcome is identical for every
format name); it rejects an empty selector map and more than 5 selectors;
an unrecognised format name is not rejected anywhere in the service —
`_format_array_output` silently falls back to the structured rendering. -/
theorem C8_validation (urlOk : Bool) (selectors : List (Str × Str)) (fmt : Str)
    (arrays : List ArrayData) :
    crawlArrayValidate urlOk selectors fmt
      = crawlArrayValidate urlOk selectors (str "structured")
    ∧ (selectors = [] → crawlArrayValidate true selectors fmt
        = some (str "array_selectors must be a non-empty dictionary"))
    ∧ (5 < selectors.length → crawlArrayValidate true selectors fmt
        = some (str "Maximum 5 array selectors allowed"))
    ∧ (fmt ≠ str "structured" → fmt ≠ str "flat" → fmt ≠ str "summary" →
        formatArrayOutput arrays fmt = formatArrayOutput arrays (str "structured")) := by
  refine ⟨rfl, ?_, ?_, ?_⟩
  · intro h
    subst h
    rfl
  · intro h
    have hne : selectors ≠ [] := by
      intro he
      rw [he] at h
      simp at h
    rw [crawlArrayValidate]
    simp [hne, h]
  · intro h1 h2 h3
    rw [formatArrayOutput, if_neg h1, if_neg h2, if_neg h3]
    rw [formatArrayOutput, if_pos rfl]

/-- Concrete six-selector map for the C8 witness. -/
def c8Six : List (Str × Str) :=
  [(str "a", str ".a"), (str "b", str ".b"), (str "c", str ".c"),
   (str "d", str ".d"), (str "e", str ".e"), (str "f", str ".f")]

/-- Concrete array data for the C8 artifacts. -/
def c8Arrays : List ArrayData :=
  [ArrayData.mk (str "items") (str ".item")
    [Item.mk 0 (str "first extracted item content here") []]]

/-- C8 counterexample: a request with format name `bogus` passes the
service validation (`none` = accepted, where the claim demands rejection)
and then produces the full structured rendering instead of failing. -/
theorem C8_counterexample :
    crawlArrayValidate true [(str "items", str ".item")] (str "bogus") = none
    ∧ formatArrayOutput c8Arrays (str "bogus") = structuredRender c8Arrays
    ∧ structuredRender c8Arrays ≠ [] := by decide

/-- Witness for `C8_validation` at concrete inputs. -/
theorem C8_witness :
    crawlArrayValidate true [] (str "bogus")
      = some (str "array_selectors must be a non-empty dictionary")
    ∧ crawlArrayValidate true c8Six (str "bogus")
      = some (str "Maximum 5 array selectors allowed")
    ∧ formatArrayOutput c8Arrays (str "bogus")
      = formatArrayOutput c8Arrays (str "structured") :=
  ⟨(C8_validation true [] (str "bogus") c8Arrays).2.1 rfl,
   (C8_validation true c8Six (str "bogus") c8Arrays).2.2.1 (by decide),
   (C8_validation true c8Six (str "bogus") c8Arrays).2.2.2 (by decide) (by decide) (by decide)⟩

/-!
## Claim C9
-/

/-- C9 (confirmed): `_extract_text_from_element` works on a deep copy of
its argument — in the state-passing embedding the caller's element is
unchanged after the call, and a repeated visit of the same (unchanged)
subtree produces the same text. -/
theorem C9_extract_pure (element : HNode) :
    (extractTextCall element).2 = element
    ∧ (extractTextCall ((extractTextCall element).2)).1 = (extractTextCall element).1 :=
  ⟨rfl, rfl⟩

/-!
## Claim C3: stable-sort lemmas and the section stage
-/

theorem insertDescBy_mem (gt : α → α → Bool) (x : α) :
    ∀ (l : List α) (a : α), a ∈ insertDescBy gt x l ↔ a = x ∨ a ∈ l := by
  intro l
  induction l with
  | nil => intro a; simp [insertDescBy]
  | cons y ys ih =>
    intro a
    rw [insertDescBy]
    split
    · simp
    · simp only [List.mem_cons, ih]
      tauto

theorem insertDescBy_length (gt : α → α → Bool) (x : α) :
    ∀ l : List α, (insertDescBy gt x l).length = l.length + 1 := by
  intro l
  induction l with
  | nil => rfl
  | cons y ys ih =>
    rw [insertDescBy]
    split
    · rfl
    · simp [ih]

theorem sortDescBy_foldl_mem (gt : α → α → Bool) :
    ∀ (l acc : List α) (a : α),
      a ∈ l.foldl (fun acc x => insertDescBy gt x acc) acc ↔ a ∈ acc ∨ a ∈ l := by
  intro l
  induction l with
  | nil => intro acc a; simp
  | cons x xs ih =>
    intro acc a
    rw [List.foldl_cons, ih]
    rw [insertDescBy_mem]
    simp only [List.mem_cons]
    tauto

theorem sortDescBy_mem (gt : α → α → Bool) (l : List α) (a : α) :
    a ∈ sortDescBy gt l ↔ a ∈ l := by
  rw [sortDescBy, sortDescBy_foldl_mem]
  simp

theorem sortDescBy_foldl_length (gt : α → α → Bool) :
    ∀ (l acc : List α),
      (l.foldl (fun acc x => insertDescBy gt x acc) acc).length = acc.length + l.length := by
  intro l
  induction l with
  | nil => intro acc; simp
  | cons x xs ih =>
    intro acc
    rw [List.foldl_cons, ih, insertDescBy_length, List.length_cons]
    omega

theorem sortDescBy_length (gt : α → α → Bool) (l : List α) :
    (sortDescBy gt l).length = l.length := by
  rw [sortDescBy, sortDescBy_foldl_length]
  simp

theorem pairwise_insertDescBy (κ : α → Nat) (x : α) :
    ∀ l : List α, l.Pairwise (fun a b => κ b ≤ κ a) →
      (insertDescBy (fun a b => κ a > κ b) x l).Pairwise (fun a b => κ b ≤ κ a) := by
  intro l
  induction l with
  | nil => intro _; simp [insertDescBy]
  | cons y ys ih =>
    intro h
    rw [List.pairwise_cons] at h
    rw [insertDescBy]
    split
    · rename_i hgt
      simp only [decide_eq_true_eq] at hgt
      rw [List.pairwise_cons]
      refine ⟨?_, List.pairwise_cons.mpr h⟩
      intro b hb
      rcases List.mem_cons.mp hb with rfl | hb'
      · omega
      · have := h.1 b hb'
        omega
    · rename_i hgt
      simp only [decide_eq_true_eq] at hgt
      rw [List.pairwise_cons]
      constructor
      · intro b hb
        rcases (insertDescBy_mem _ x ys b).mp hb with rfl | hb'
        · omega
        · exact h.1 b hb'
      · exact ih h.2

theorem pairwise_sortDescBy_foldl (κ : α → Nat) :
    ∀ (l acc : List α), acc.Pairwise (fun a b => κ b ≤ κ a) →
      (l.foldl (fun acc x => insertDescBy (fun a b => κ a > κ b) x acc) acc).Pairwise
        (fun a b => κ b ≤ κ a) := by
  intro l
  induction l with
  | nil => intro acc h; simpa using h
  | cons x xs ih =>
    intro acc h
    rw [List.foldl_cons]
    exact ih _ (pairwise_insertDescBy κ x acc h)

theorem pairwise_sortDescBy (κ : α → Nat) (l : List α) :
    (sortDescBy (fun a b => κ a > κ b) l).Pairwise (fun a b => κ b ≤ κ a) :=
  pairwise_sortDescBy_foldl κ l [] List.Pairwise.nil

theorem nestedKeep_nil (used : List Str) : nestedKeep [] used = [] := rfl

theorem nestedKeep_cons (x : HtmlSection) (rest : List HtmlSection) (used : List Str) :
    nestedKeep (x :: rest) used =
      if isContentDuplicate x.content used (mkRat 3 4) = false then
        x :: nestedKeep rest (used ++ [x.content])
      else nestedKeep rest used := rfl

theorem nestedKeep_sublist (l : List HtmlSection) : ∀ used,
    List.Sublist (nestedKeep l used) l := by
  induction l with
  | nil => intro used; simp [nestedKeep_nil]
  | cons x rest ih =>
    intro used
    rw [nestedKeep_cons]
    split
    · exact (ih _).cons₂ x
    · exact (ih used).cons x

theorem nestedKeep_not_dup (l : List HtmlSection) :
    ∀ used i c, ((nestedKeep l used).map HtmlSection.content).get? i = some c →
    isContentDuplicate c (used ++ ((nestedKeep l used).map HtmlSection.content).take i)
      (mkRat 3 4) = false := by
  induction l with
  | nil => intro used i c h; simp [nestedKeep_nil] at h
  | cons x rest ih =>
    intro used i c h
    rw [nestedKeep_cons]
    rw [nestedKeep_cons] at h
    by_cases hdup : isContentDuplicate x.content used (mkRat 3 4) = false
    · rw [if_pos hdup] at h ⊢
      match i with
      | 0 =>
        simp at h
        rw [h] at hdup
        simpa using hdup
      | i + 1 =>
        have := ih (used ++ [x.content]) i c (by simpa using h)
        simpa [List.append_assoc] using this
    · rw [if_neg hdup] at h ⊢
      exact ih used i c h

/-- C3 (amended): in the selective content pipeline, when there are at
least two extracted sections, survival of a containment/duplicate
conflict and the order of the surviving sections are governed by content
length descending (selector priority and original position act only as
tie-breaks through the stable sorts): the surviving sections come from
the input, appear in non-increasing order of content length — the order
in which they are concatenated — and each survivor is not a duplicate
(threshold 0.75) of the longer-or-equal survivors kept before it. -/
theorem C3_section_order (sections : List HtmlSection) (h2 : 2 ≤ sections.length) :
    ((sectionDedupStage sections).Pairwise fun s t => t.content.length ≤ s.content.length)
    ∧ (∀ s ∈ sectionDedupStage sections, s ∈ sections)
    ∧ (∀ i c, ((sectionDedupStage sections).map HtmlSection.content).get? i = some c →
        isContentDuplicate c
          (((sectionDedupStage sections).map HtmlSection.content).take i)
          (mkRat 3 4) = false) := by
  have hg1 : sections.length > 1 := by omega
  have hg2 : (prioritizeSelectors sections).length > 1 := by
    rw [prioritizeSelectors, sortDescBy_length]
    omega
  have hstage : sectionDedupStage sections
      = nestedKeep (sortDescBy (fun s t => s.content.length > t.content.length)
          (prioritizeSelectors sections)) [] := by
    rw [sectionDedupStage]
    rw [if_pos hg1, if_pos hg2]
    rfl
  rw [hstage]
  refine ⟨?_, ?_, ?_⟩
  · exact (pairwise_sortDescBy (fun s : HtmlSection => s.content.length)
      (prioritizeSelectors sections)).sublist (nestedKeep_sublist _ [])
  · intro s hs
    have h1 : s ∈ sortDescBy (fun s t => s.content.length > t.content.length)
        (prioritizeSelectors sections) :=
      (nestedKeep_sublist _ []).mem hs
    have h2m := (sortDescBy_mem _ _ s).mp h1
    rw [prioritizeSelectors] at h2m
    exact (sortDescBy_mem _ _ s).mp h2m
  · intro i c h
    simpa using nestedKeep_not_dup _ [] i c h

/-- First concrete section for the C3 artifacts: a bare `div` selector
with the longer content. -/
def c3Long : HtmlSection :=
  HtmlSection.mk (str "s1") (str "div") (str "this is the full article body text here")

/-- Second concrete section for the C3 artifacts: an ID selector whose
content is contained in the longer section. -/
def c3Short : HtmlSection :=
  HtmlSection.mk (str "s2") (str "#main") (str "the full article body text")

/-- Modelled from the claim as stated: the priority ranking (ID above
class/attribute above bare element, ties by length) decides the
processing order for the containment/duplicate conflict and the final
concatenation order. -/
def claimedSectionStage (sections : List HtmlSection) : List HtmlSection :=
  nestedKeep (prioritizeSelectors sections) []

/-- C3 counterexample: with a long bare-element section and a short ID
section contained in it, the code keeps the long `div` section (length
order decides), while the claimed priority order would keep the `#main`
section — the surviving set itself differs. -/
theorem C3_counterexample :
    sectionDedupStage [c3Long, c3Short] = [c3Long]
    ∧ claimedSectionStage [c3Long, c3Short] = [c3Short]
    ∧ sectionDedupStage [c3Long, c3Short] ≠ claimedSectionStage [c3Long, c3Short] := by
  decide

/-- Witness for `C3_section_order` at the concrete two-section input. -/
theorem C3_witness :
    2 ≤ ([c3Long, c3Short] : List HtmlSection).length
    ∧ (((sectionDedupStage [c3Long, c3Short]).Pairwise
          fun s t => t.content.length ≤ s.content.length)
      ∧ (∀ s ∈ sectionDedupStage [c3Long, c3Short], s ∈ [c3Long, c3Short])
      ∧ (∀ i c,
          ((sectionDedupStage [c3Long, c3Short]).map HtmlSection.content).get? i = some c →
          isContentDuplicate c
            (((sectionDedupStage [c3Long, c3Short]).map HtmlSection.content).take i)
            (mkRat 3 4) = false)) :=
  ⟨by decide, C3_section_order [c3Long, c3Short] (by decide)⟩

/-!
## Claim C4: supporting lemmas

The goal is `similarity(a, a) = 1.0` for every non-empty `a`.  The crux
is that `find_longest_match` over identical strings always ends with a
best block on the diagonal (`besti = bestj`), after which the extension
phases stretch it to the whole string.  Diagonality is established by a
run-length invariant over the two nested loops.
-/

/-- The positions at which character `c` occurs in a string, starting at
offset `p` — the reference reading of the `b2j` entries. -/
def charPositionsFrom : Nat → Str → Char → List Nat
  | _, [], _ => []
  | p, d :: rest, c =>
    if d = c then p :: charPositionsFrom (p + 1) rest c
    else charPositionsFrom (p + 1) rest c

theorem charPositionsFrom_mem (b : Str) : ∀ p c j,
    j ∈ charPositionsFrom p b c ↔ p ≤ j ∧ j - p < b.length ∧ b.get? (j - p) = some c := by
  induction b with
  | nil => intro p c j; simp [charPositionsFrom]
  | cons d rest ih =>
    intro p c j
    rw [charPositionsFrom]
    by_cases hd : d = c
    · rw [if_pos hd]
      subst hd
      simp only [List.mem_cons, ih]
      constructor
      · rintro (rfl | ⟨h1, h2, h3⟩)
        · exact ⟨Nat.le_refl _, by simp, by simp⟩
        · refine ⟨by omega, by simp; omega, ?_⟩
          have he : j - p = (j - (p + 1)) + 1 := by omega
          rw [he]
          simpa using h3
      · rintro ⟨h1, h2, h3⟩
        by_cases hj : j = p
        · exact Or.inl hj
        · refine Or.inr ⟨by omega, by simp at h2; omega, ?_⟩
          have he : j - p = (j - (p + 1)) + 1 := by omega
          rw [he] at h3
          simpa using h3
    · rw [if_neg hd]
      rw [ih]
      constructor
      · rintro ⟨h1, h2, h3⟩
        refine ⟨by omega, by simp; omega, ?_⟩
        have he : j - p = (j - (p + 1)) + 1 := by omega
        rw [he]
        simpa using h3
      · rintro ⟨h1, h2, h3⟩
        by_cases hj : j = p
        · subst hj
          simp at h3
          exact absurd h3 hd
        · refine ⟨by omega, by simp at h2; omega, ?_⟩
          have he : j - p = (j - (p + 1)) + 1 := by omega
          rw [he] at h3
          simpa using h3

theorem charPositionsFrom_sorted (b : Str) : ∀ p c,
    (charPositionsFrom p b c).Pairwise (· < ·) := by
  induction b with
  | nil => intro p c; simp [charPositionsFrom]
  | cons d rest ih =>
    intro p c
    rw [charPositionsFrom]
    split
    · rw [List.pairwise_cons]
      refine ⟨?_, ih (p + 1) c⟩
      intro j hj
      have := ((charPositionsFrom_mem rest (p + 1) c j).mp hj).1
      omega
    · exact ih (p + 1) c

theorem sorted_mem_split {l : List Nat} {i : Nat} (hs : l.Pairwise (· < ·)) (hm : i ∈ l) :
    ∃ pre post, l = pre ++ i :: post ∧ (∀ j ∈ pre, j < i) ∧ (∀ j ∈ post, i < j) := by
  induction l with
  | nil => simp at hm
  | cons x xs ih =>
    rw [List.pairwise_cons] at hs
    rcases List.mem_cons.mp hm with rfl | hm'
    · exact ⟨[], xs, rfl, by simp, hs.1⟩
    · obtain ⟨pre, post, he, hpre, hpost⟩ := ih hs.2 hm'
      refine ⟨x :: pre, post, by rw [he]; rfl, ?_, hpost⟩
      intro j hj
      rcases List.mem_cons.mp hj with rfl | hj'
      · exact hs.1 i hm'
      · exact hpre j hj'

theorem tblLookup_nil (c : Char) : tblLookup [] c = [] := rfl

theorem tblLookup_cons (e : Char × List Nat) (rest : List (Char × List Nat)) (c : Char) :
    tblLookup (e :: rest) c = if e.1 = c then e.2 else tblLookup rest c := by
  rw [tblLookup, tblLookup]
  by_cases h : e.1 = c
  · rw [if_pos h, List.find?_cons_of_pos]
    simpa using h
  · rw [if_neg h, List.find?_cons_of_neg]
    simpa using h

theorem upsertPos_cons (d : Char) (p : Nat) (ec : Char) (ejs : List Nat)
    (rest : List (Char × List Nat)) :
    upsertPos d p ((ec, ejs) :: rest)
      = if ec = d then (ec, p :: ejs) :: rest else (ec, ejs) :: upsertPos d p rest := rfl

theorem tblLookup_upsertPos (tbl : List (Char × List Nat)) : ∀ (d : Char) (p : Nat) (c : Char),
    tblLookup (upsertPos d p tbl) c
      = if d = c then p :: tblLookup tbl c else tblLookup tbl c := by
  induction tbl with
  | nil =>
    intro d p c
    rw [upsertPos, tblLookup_cons, tblLookup_nil]
  | cons e rest ih =>
    intro d p c
    rcases e with ⟨ec, ejs⟩
    rw [upsertPos_cons]
    by_cases hd : ec = d
    · rw [if_pos hd, tblLookup_cons, tblLookup_cons]
      by_cases hc : ec = c
      · rw [if_pos (show ((ec, p :: ejs) : Char × List Nat).1 = c from hc),
          if_pos (show ((ec, ejs) : Char × List Nat).1 = c from hc),
          if_pos (show d = c from hd ▸ hc)]
      · rw [if_neg (show ¬((ec, p :: ejs) : Char × List Nat).1 = c from hc),
          if_neg (show ¬((ec, ejs) : Char × List Nat).1 = c from hc),
          if_neg (show ¬d = c from fun h => hc (hd.trans h))]
    · rw [if_neg hd, tblLookup_cons, tblLookup_cons, ih d p c]
      by_cases hc : ec = c
      · rw [if_pos (show ((ec, ejs) : Char × List Nat).1 = c from hc),
          if_pos (show ((ec, ejs) : Char × List Nat).1 = c from hc),
          if_neg (show ¬d = c from fun h => hd (hc.trans h.symm))]
      · rw [if_neg (show ¬((ec, ejs) : Char × List Nat).1 = c from hc),
          if_neg (show ¬((ec, ejs) : Char × List Nat).1 = c from hc)]

theorem buildB2jFrom_lookup (b : Str) : ∀ p c,
    tblLookup (buildB2jFrom p b) c = charPositionsFrom p b c := by
  induction b with
  | nil => intro p c; rfl
  | cons d rest ih =>
    intro p c
    rw [buildB2jFrom, tblLookup_upsertPos, ih, charPositionsFrom]

theorem upsertPos_keys (tbl : List (Char × List Nat)) : ∀ d p x, x ∈ upsertPos d p tbl →
    x.1 = d ∨ ∃ y ∈ tbl, x.1 = y.1 := by
  induction tbl with
  | nil =>
    intro d p x hx
    rw [upsertPos] at hx
    simp at hx
    simp [hx]
  | cons e rest ih =>
    intro d p x hx
    rcases e with ⟨ec, ejs⟩
    rw [upsertPos_cons] at hx
    split at hx
    · rcases List.mem_cons.mp hx with rfl | hx'
      · exact Or.inr ⟨(ec, ejs), by simp, rfl⟩
      · exact Or.inr ⟨x, by simp [hx'], rfl⟩
    · rcases List.mem_cons.mp hx with rfl | hx'
      · exact Or.inr ⟨(ec, ejs), by simp, rfl⟩
      · rcases ih d p x hx' with h | ⟨y, hy, he⟩
        · exact Or.inl h
        · exact Or.inr ⟨y, by simp [hy], he⟩

theorem upsertPos_pairwise (tbl : List (Char × List Nat)) : ∀ d p,
    tbl.Pairwise (fun e1 e2 => e1.1 ≠ e2.1) →
    (upsertPos d p tbl).Pairwise (fun e1 e2 => e1.1 ≠ e2.1) := by
  induction tbl with
  | nil => intro d p _; simp [upsertPos]
  | cons e rest ih =>
    intro d p h
    rcases e with ⟨ec, ejs⟩
    rw [List.pairwise_cons] at h
    rw [upsertPos_cons]
    by_cases hd : ec = d
    · rw [if_pos hd, List.pairwise_cons]
      exact ⟨fun x hx => h.1 x hx, h.2⟩
    · rw [if_neg hd, List.pairwise_cons]
      constructor
      · intro x hx
        rcases upsertPos_keys rest d p x hx with h1 | ⟨y, hy, he⟩
        · intro hc
          exact hd (hc.trans h1)
        · intro hc
          exact h.1 y hy (hc.trans he)
      · exact ih d p h.2

theorem buildB2jFrom_pairwise (b : Str) : ∀ p,
    (buildB2jFrom p b).Pairwise (fun e1 e2 => e1.1 ≠ e2.1) := by
  induction b with
  | nil => intro p; simp [buildB2jFrom]
  | cons d rest ih =>
    intro p
    rw [buildB2jFrom]
    exact upsertPos_pairwise _ d p (ih (p + 1))

theorem tblLookup_none_of_keys (tbl : List (Char × List Nat)) (c : Char)
    (h : ∀ x ∈ tbl, x.1 ≠ c) : tblLookup tbl c = [] := by
  rw [tblLookup]
  rw [List.find?_eq_none.mpr (by intro x hx; simpa using h x hx)]

theorem tblLookup_filter (pred : Char × List Nat → Bool) (c : Char) :
    ∀ tbl : List (Char × List Nat), tbl.Pairwise (fun e1 e2 => e1.1 ≠ e2.1) →
    tblLookup (tbl.filter pred) c = tblLookup tbl c
      ∨ tblLookup (tbl.filter pred) c = [] := by
  intro tbl
  induction tbl with
  | nil => intro _; left; rfl
  | cons e rest ih =>
    intro h
    rw [List.pairwise_cons] at h
    by_cases hp : pred e = true
    · rw [List.filter_cons_of_pos hp, tblLookup_cons, tblLookup_cons]
      by_cases hc : e.1 = c
      · rw [if_pos hc, if_pos hc]
        left
        rfl
      · rw [if_neg hc, if_neg hc]
        exact ih h.2
    · rw [List.filter_cons_of_neg (by simpa using hp), tblLookup_cons]
      by_cases hc : e.1 = c
      · rw [if_pos hc]
        right
        apply tblLookup_none_of_keys
        intro x hx
        have hx' := List.mem_of_mem_filter hx
        have := h.1 x hx'
        rw [hc] at this
        exact fun hxc => this hxc.symm
      · rw [if_neg hc]
        exact ih h.2

/-- The purged lookup function underlying the longest-match search over
identical strings. -/
def lkOf (b : Str) (c : Char) : List Nat := tblLookup (chainB b) c

theorem lkOf_spec (b : Str) (c : Char) :
    lkOf b c = charPositionsFrom 0 b c ∨ lkOf b c = [] := by
  rw [lkOf, chainB, purgePopular]
  by_cases h2 : 200 ≤ b.length
  · rw [if_pos h2]
    rcases tblLookup_filter _ c (buildB2jFrom 0 b) (buildB2jFrom_pairwise b 0) with h | h
    · left
      rw [h, buildB2jFrom_lookup]
    · right
      exact h
  · rw [if_neg h2]
    left
    exact buildB2jFrom_lookup b 0 c

theorem getD_of_getq (l : Str) (i : Nat) (x : Char) (h : l.get? i = some x) :
    l.getD i ' ' = x := by
  rw [List.getD_eq_get?, h]
  rfl

/-- The length of the diagonal run of unpurged characters ending at
position `i` — the value the diagonal chain of the inner loop reaches at
row `i` over identical strings. -/
def runLen (b : Str) : Nat → Nat
  | 0 => if lkOf b (b.getD 0 ' ') = [] then 0 else 1
  | i + 1 => if lkOf b (b.getD (i + 1) ' ') = [] then 0 else runLen b i + 1

theorem runLen_le (b : Str) : ∀ i, runLen b i ≤ i + 1 := by
  intro i
  induction i with
  | zero =>
    rw [runLen]
    split <;> omega
  | succ m ih =>
    rw [runLen]
    split <;> omega

theorem flmInner_nil_eq (old : Nat → Nat) (i blo bhi : Nat) (st : FlmState)
    (nl : Nat → Nat) : flmInner old i blo bhi [] st nl = (st, nl) := rfl

theorem flmInner_cons_in (old : Nat → Nat) (i blo bhi j : Nat) (rest : List Nat)
    (st : FlmState) (nl : Nat → Nat) (h1 : ¬ j < blo) (h2 : ¬ bhi ≤ j) :
    flmInner old i blo bhi (j :: rest) st nl =
      flmInner old i blo bhi rest
        (if chainK old j > st.bestsize
         then FlmState.mk (i + 1 - chainK old j) (j + 1 - chainK old j) (chainK old j)
         else st)
        (fun x => if x = j then chainK old j else nl x) := by
  rw [flmInner, if_neg h1, if_neg h2]

theorem flmInner_fst_nl_indep (old : Nat → Nat) (i blo bhi : Nat) :
    ∀ (js : List Nat) (st : FlmState) (nl nl' : Nat → Nat),
      (flmInner old i blo bhi js st nl).1 = (flmInner old i blo bhi js st nl').1 := by
  intro js
  induction js with
  | nil => intro st nl nl'; rfl
  | cons j rest ih =>
    intro st nl nl'
    by_cases h1 : j < blo
    · rw [flmInner, if_pos h1, flmInner, if_pos h1]
      exact ih st nl nl'
    · by_cases h2 : bhi ≤ j
      · rw [flmInner, if_neg h1, if_pos h2, flmInner, if_neg h1, if_pos h2]
      · rw [flmInner_cons_in old i blo bhi j rest st nl h1 h2,
          flmInner_cons_in old i blo bhi j rest st nl' h1 h2]
        exact ih _ _ _

theorem flmInner_append (old : Nat → Nat) (i bhi : Nat) :
    ∀ (l1 l2 : List Nat) (st : FlmState) (nl : Nat → Nat), (∀ j ∈ l1, j < bhi) →
    flmInner old i 0 bhi (l1 ++ l2) st nl =
      flmInner old i 0 bhi l2 (flmInner old i 0 bhi l1 st nl).1
        (flmInner old i 0 bhi l1 st nl).2 := by
  intro l1
  induction l1 with
  | nil => intro l2 st nl _; rfl
  | cons j rest ih =>
    intro l2 st nl hb
    have hj : j < bhi := hb j (by simp)
    rw [List.cons_append,
      flmInner_cons_in old i 0 bhi j (rest ++ l2) st nl (by omega) (by omega),
      flmInner_cons_in old i 0 bhi j rest st nl (by omega) (by omega)]
    exact ih l2 _ _ (fun x hx => hb x (by simp [hx]))

theorem flmInner_st_noupd (old : Nat → Nat) (i bhi : Nat) :
    ∀ (js : List Nat) (st : FlmState) (nl : Nat → Nat),
      (∀ j ∈ js, j < bhi) → (∀ j ∈ js, chainK old j ≤ st.bestsize) →
      (flmInner old i 0 bhi js st nl).1 = st := by
  intro js
  induction js with
  | nil => intro st nl _ _; rfl
  | cons j rest ih =>
    intro st nl hb hk
    have hj : j < bhi := hb j (by simp)
    rw [flmInner_cons_in old i 0 bhi j rest st nl (by omega) (by omega)]
    have hnoup : ¬ chainK old j > st.bestsize := by
      have := hk j (by simp)
      omega
    rw [if_neg hnoup]
    exact ih st _ (fun x hx => hb x (by simp [hx])) (fun x hx => hk x (by simp [hx]))

theorem flmInner_snd (old : Nat → Nat) (i bhi : Nat) :
    ∀ (js : List Nat) (st : FlmState) (nl : Nat → Nat),
      (∀ j ∈ js, j < bhi) → js.Pairwise (· < ·) →
      (flmInner old i 0 bhi js st nl).2
        = fun x => if x ∈ js then chainK old x else nl x := by
  intro js
  induction js with
  | nil =>
    intro st nl _ _
    funext x
    rw [flmInner_nil_eq]
    simp
  | cons j rest ih =>
    intro st nl hb hs
    have hj : j < bhi := hb j (by simp)
    rw [List.pairwise_cons] at hs
    rw [flmInner_cons_in old i 0 bhi j rest st nl (by omega) (by omega)]
    rw [ih _ _ (fun x hx => hb x (by simp [hx])) hs.2]
    funext x
    by_cases hxr : x ∈ rest
    · simp [hxr]
    · by_cases hxj : x = j
      · subst hxj
        simp [hxr]
      · simp [hxr, hxj]

theorem extendBack_diag (b : Str) : ∀ p s, p + s ≤ b.length →
    extendBack b b 0 0 p p s = (0, 0, p + s) := by
  intro p
  induction p with
  | zero => intro s _; rw [extendBack, Nat.zero_add]
  | succ m ih =>
    intro s hps
    have hm : m < b.length := by omega
    have hc : charAtEq b b m m = true := by
      rw [charAtEq, List.get?_eq_get hm]
      simp
    rw [extendBack, if_pos ⟨Nat.succ_pos m, Nat.succ_pos m, by simpa using hc⟩,
      Nat.add_sub_cancel, ih (s + 1) (by omega),
      show m + (s + 1) = m + 1 + s by omega]

theorem extendFwdAux_diag (b : Str) (n : Nat) (hn : b.length = n) :
    ∀ fuel t, t ≤ n → n - t < fuel → extendFwdAux b b n n 0 0 fuel t = n := by
  intro fuel
  induction fuel with
  | zero => intro t _ h; omega
  | succ f ih =>
    intro t ht hf
    by_cases hlt : t < n
    · have hc : charAtEq b b t t = true := by
        rw [charAtEq, List.get?_eq_get (show t < b.length by omega)]
        simp
      rw [extendFwdAux, if_pos ⟨by omega, by omega, by simpa using hc⟩]
      exact ih (t + 1) (by omega) (by omega)
    · have : t = n := by omega
      rw [extendFwdAux, if_neg (by omega)]
      exact this

theorem chainK_zero (old : Nat → Nat) : chainK old 0 = 1 := rfl

theorem chainK_succ (old : Nat → Nat) (m : Nat) : chainK old (m + 1) = old m + 1 := rfl

theorem runLen_pos_eq (b : Str) (i : Nat) (h : lkOf b (b.getD i ' ') ≠ []) :
    runLen b i = (if i = 0 then 0 else runLen b (i - 1)) + 1 := by
  cases i with
  | zero => rw [runLen, if_neg h]; simp
  | succ t => rw [runLen, if_neg h]; simp

theorem runLen_zero_eq (b : Str) (i : Nat) (h : lkOf b (b.getD i ' ') = []) :
    runLen b i = 0 := by
  cases i with
  | zero => rw [runLen, if_pos h]
  | succ t => rw [runLen, if_pos h]

theorem chainK_bounds (b : Str) (n : Nat) (hn : b.length = n) (i : Nat) (hi : i < n)
    (row : Nat → Nat)
    (H4 : ∀ j, row j ≤ runLen b j)
    (H5 : ∀ j, row j ≤ (if i = 0 then 0 else runLen b (i - 1)))
    (H7 : ∀ m, i = m + 1 → row m = runLen b m)
    (hjs : lkOf b (b.getD i ' ') ≠ []) :
    (∀ j ∈ lkOf b (b.getD i ' '),
      chainK row j ≤ runLen b j ∧ chainK row j ≤ runLen b i ∧ j < n)
    ∧ chainK row i = runLen b i
    ∧ i ∈ lkOf b (b.getD i ' ')
    ∧ (lkOf b (b.getD i ' ')).Pairwise (· < ·) := by
  have hib : i < b.length := hn ▸ hi
  have hgq : b.get? i = some (b.getD i ' ') := by
    rw [List.get?_eq_get hib, List.getD_eq_get?, List.get?_eq_get hib]
    rfl
  rcases lkOf_spec b (b.getD i ' ') with hcp | hz
  swap
  · exact absurd hz hjs
  have hmemiff : ∀ j, j ∈ lkOf b (b.getD i ' ')
      ↔ j < b.length ∧ b.get? j = some (b.getD i ' ') := by
    intro j
    rw [hcp, charPositionsFrom_mem]
    simp
  have hunp : ∀ j, j ∈ lkOf b (b.getD i ' ') → lkOf b (b.getD j ' ') ≠ [] := by
    intro j hj
    have h2 := (hmemiff j).mp hj
    rw [getD_of_getq b j _ h2.2]
    exact hjs
  have hrli : runLen b i = (if i = 0 then 0 else runLen b (i - 1)) + 1 :=
    runLen_pos_eq b i hjs
  refine ⟨?_, ?_, ?_, ?_⟩
  · intro j hj
    have hrlj : runLen b j = (if j = 0 then 0 else runLen b (j - 1)) + 1 :=
      runLen_pos_eq b j (hunp j hj)
    refine ⟨?_, ?_, hn ▸ ((hmemiff j).mp hj).1⟩
    · cases j with
      | zero => rw [chainK_zero, hrlj]; omega
      | succ m =>
        rw [chainK_succ, hrlj]
        simp only [Nat.succ_ne_zero, if_false, Nat.add_sub_cancel]
        have := H4 m
        omega
    · cases j with
      | zero => rw [chainK_zero, hrli]; omega
      | succ m =>
        rw [chainK_succ, hrli]
        have := H5 m
        omega
  · cases i with
    | zero => rw [chainK_zero, hrli]; simp
    | succ t =>
      rw [chainK_succ, hrli, H7 t rfl]
      simp only [Nat.succ_ne_zero, if_false, Nat.add_sub_cancel]
  · exact (hmemiff i).mpr ⟨hib, hgq⟩
  · rw [hcp]
    exact charPositionsFrom_sorted b 0 _

theorem flmRow_state (b : Str) (n : Nat) (hn : b.length = n) (i q B : Nat)
    (row : Nat → Nat) (hi : i < n) (H2 : q + B ≤ n)
    (H3 : ∀ m, m < i → runLen b m ≤ B)
    (H4 : ∀ j, row j ≤ runLen b j)
    (H5 : ∀ j, row j ≤ (if i = 0 then 0 else runLen b (i - 1)))
    (H7 : ∀ m, i = m + 1 → row m = runLen b m) :
    ∃ q' B',
      (flmInner row i 0 n (lkOf b (b.getD i ' ')) (FlmState.mk q q B) (fun _ => 0)).1
        = FlmState.mk q' q' B'
      ∧ q' + B' ≤ n ∧ B ≤ B' ∧ (∀ m, m < i + 1 → runLen b m ≤ B') := by
  by_cases hjs : lkOf b (b.getD i ' ') = []
  · refine ⟨q, B, ?_, H2, Nat.le_refl B, ?_⟩
    · rw [hjs, flmInner_nil_eq]
    · intro m hm
      by_cases hmi : m < i
      · exact H3 m hmi
      · have hme : m = i := by omega
        subst hme
        rw [runLen_zero_eq b m hjs]
        omega
  · obtain ⟨K12, K3, Kmem, Ksort⟩ := chainK_bounds b n hn i hi row H4 H5 H7 hjs
    obtain ⟨pre, post, hsplit, hpre, hpost⟩ := sorted_mem_split Ksort Kmem
    have hbndAll : ∀ j ∈ lkOf b (b.getD i ' '), j < n := fun j hj => (K12 j hj).2.2
    have hbndPre : ∀ j ∈ pre, j < n := fun j hj =>
      hbndAll j (by rw [hsplit]; simp [hj])
    have hbndPost : ∀ j ∈ post, j < n := fun j hj =>
      hbndAll j (by rw [hsplit]; simp [hj])
    rw [hsplit, flmInner_append row i n pre (i :: post) _ _ hbndPre]
    have hpreSt :
        (flmInner row i 0 n pre (FlmState.mk q q B) (fun _ => 0)).1 = FlmState.mk q q B := by
      apply flmInner_st_noupd row i n pre _ _ hbndPre
      intro j hj
      have hk1 := (K12 j (by rw [hsplit]; simp [hj])).1
      have hk2 := H3 j (hpre j hj)
      exact Nat.le_trans hk1 hk2
    rw [flmInner_cons_in row i 0 n i post _ _ (by omega) (by omega), hpreSt]
    set k := chainK row i with hkdef
    have hkR : k = runLen b i := K3
    have hkle : k ≤ i + 1 := by
      rw [hkR]
      exact runLen_le b i
    by_cases hupd : k > (FlmState.mk q q B).bestsize
    · rw [if_pos hupd]
      refine ⟨i + 1 - k, k, ?_, by omega, ?_, ?_⟩
      · apply flmInner_st_noupd row i n post _ _ hbndPost
        intro j hj
        have := (K12 j (by rw [hsplit]; simp [hj])).2.1
        show chainK row j ≤ k
        omega
      · simp at hupd
        omega
      · intro m hm
        by_cases hmi : m < i
        · have := H3 m hmi
          simp at hupd
          omega
        · have hme : m = i := by omega
          subst hme
          omega
    · rw [if_neg hupd]
      refine ⟨q, B, ?_, H2, Nat.le_refl B, ?_⟩
      · apply flmInner_st_noupd row i n post _ _ hbndPost
        intro j hj
        have h1 := (K12 j (by rw [hsplit]; simp [hj])).2.1
        show chainK row j ≤ B
        simp at hupd
        omega
      · intro m hm
        by_cases hmi : m < i
        · exact H3 m hmi
        · have hme : m = i := by omega
          subst hme
          simp at hupd
          omega

theorem flmRow_next (b : Str) (n : Nat) (hn : b.length = n) (i : Nat) (hi : i < n)
    (row : Nat → Nat) (st : FlmState)
    (H4 : ∀ j, row j ≤ runLen b j)
    (H5 : ∀ j, row j ≤ (if i = 0 then 0 else runLen b (i - 1)))
    (H7 : ∀ m, i = m + 1 → row m = runLen b m) :
    (∀ j, (flmInner row i 0 n (lkOf b (b.getD i ' ')) st (fun _ => 0)).2 j ≤ runLen b j)
    ∧ (∀ j, (flmInner row i 0 n (lkOf b (b.getD i ' ')) st (fun _ => 0)).2 j ≤ runLen b i)
    ∧ (flmInner row i 0 n (lkOf b (b.getD i ' ')) st (fun _ => 0)).2 i = runLen b i := by
  by_cases hjs : lkOf b (b.getD i ' ') = []
  · rw [hjs, flmInner_nil_eq]
    refine ⟨fun j => Nat.zero_le _, fun j => Nat.zero_le _, ?_⟩
    rw [runLen_zero_eq b i hjs]
  · obtain ⟨K12, K3, Kmem, Ksort⟩ := chainK_bounds b n hn i hi row H4 H5 H7 hjs
    rw [flmInner_snd row i n _ st _ (fun j hj => (K12 j hj).2.2) Ksort]
    refine ⟨?_, ?_, ?_⟩
    · intro j
      show (if j ∈ lkOf b (b.getD i ' ') then chainK row j else 0) ≤ runLen b j
      by_cases hj : j ∈ lkOf b (b.getD i ' ')
      · rw [if_pos hj]
        exact (K12 j hj).1
      · rw [if_neg hj]
        exact Nat.zero_le _
    · intro j
      show (if j ∈ lkOf b (b.getD i ' ') then chainK row j else 0) ≤ runLen b i
      by_cases hj : j ∈ lkOf b (b.getD i ' ')
      · rw [if_pos hj]
        exact (K12 j hj).2.1
      · rw [if_neg hj]
        exact Nat.zero_le _
    · show (if i ∈ lkOf b (b.getD i ' ') then chainK row i else 0) = runLen b i
      rw [if_pos Kmem]
      exact K3

theorem flmOuter_diag (b : Str) (n : Nat) (hn : b.length = n) :
    ∀ (cnt i q B : Nat) (row : Nat → Nat),
      i + cnt = n → q + B ≤ n →
      (∀ m, m < i → runLen b m ≤ B) →
      (∀ j, row j ≤ runLen b j) →
      (∀ j, row j ≤ (if i = 0 then 0 else runLen b (i - 1))) →
      (∀ m, i = m + 1 → row m = runLen b m) →
      ∃ q' B', flmOuter b (chainB b) 0 n (List.range' i cnt) row (FlmState.mk q q B)
          = FlmState.mk q' q' B' ∧ q' + B' ≤ n := by
  intro cnt
  induction cnt with
  | zero =>
    intro i q B row _ H2 _ _ _ _
    exact ⟨q, B, rfl, H2⟩
  | succ c ih =>
    intro i q B row hcnt H2 H3 H4 H5 H7
    have hi : i < n := by omega
    rw [List.range'_succ]
    have hstep : flmOuter b (chainB b) 0 n (i :: List.range' (i + 1) c) row (FlmState.mk q q B)
        = flmOuter b (chainB b) 0 n (List.range' (i + 1) c)
            (flmInner row i 0 n (lkOf b (b.getD i ' ')) (FlmState.mk q q B) (fun _ => 0)).2
            (flmInner row i 0 n (lkOf b (b.getD i ' ')) (FlmState.mk q q B) (fun _ => 0)).1 :=
      rfl
    rw [hstep]
    obtain ⟨q2, B2, hst, hqB2, hBle, H3n⟩ := flmRow_state b n hn i q B row hi H2 H3 H4 H5 H7
    obtain ⟨N4, N5, N7⟩ := flmRow_next b n hn i hi row (FlmState.mk q q B) H4 H5 H7
    rw [hst]
    exact ih (i + 1) q2 B2 _ (by omega) hqB2 H3n N4
      (fun j => by simpa using N5 j)
      (fun m hm => by
        have hmi : m = i := by omega
        subst hmi
        exact N7)

theorem findLongestMatch_self (b : Str) (h1 : 1 ≤ b.length) :
    findLongestMatch b b (chainB b) 0 b.length 0 b.length = (0, 0, b.length) := by
  obtain ⟨q, B, hst, hqB⟩ := flmOuter_diag b b.length rfl b.length 0 0 0 (fun _ => 0)
    (by omega) (by omega) (fun m hm => absurd hm (Nat.not_lt_zero m))
    (fun j => Nat.zero_le _) (fun j => by simp) (fun m hm => by omega)
  simp only [findLongestMatch, Nat.sub_zero]
  rw [hst]
  simp only []
  rw [extendBack_diag b q B hqB]
  simp only []
  rw [extendFwd, extendFwdAux_diag b b.length rfl (b.length + 1) (q + B) hqB (by omega)]

theorem matchesTotal_self (b : Str) (h1 : 1 ≤ b.length) : matchesTotal b b = b.length := by
  have hflm := findLongestMatch_self b h1
  have hk : ¬ b.length = 0 := by omega
  simp only [matchesTotal, matchingTotal, hflm]
  simp [hk]

/-- C4 (amended): `similarity(a, a) = 1.0` for every non-empty `a`
(whatever its length — the extension phases of `find_longest_match`
always stretch the diagonal best block to the whole string); symmetry
`similarity(a, b) = similarity(b, a)` does not hold in general. -/
theorem C4_self_similarity (a : Str) (ha : a ≠ []) : calculateSimilarity a a = 1 := by
  rw [calculateSimilarity, if_neg (by simp [ha])]
  have hlen : (pyLower a).length = a.length := by simp [pyLower]
  have hpos : 0 < a.length := List.length_pos.mpr ha
  rw [ratioOf, if_neg (by omega)]
  rw [matchesTotal_self (pyLower a) (by omega)]
  rw [Rat.mkRat_eq_div]
  have hq : (0 : ℚ) < ((pyLower a).length : ℚ) := by
    exact_mod_cast (by omega : 0 < (pyLower a).length)
  rw [div_eq_one_iff_eq (by push_cast; nlinarith)]
  push_cast
  ring

/-- C4 counterexample: `similarity("tide", "diet") = 1/4` but
`similarity("diet", "tide") = 1/2`, refuting symmetry. -/
theorem C4_counterexample :
    calculateSimilarity (str "tide") (str "diet") = mkRat 1 4
    ∧ calculateSimilarity (str "diet") (str "tide") = mkRat 1 2
    ∧ calculateSimilarity (str "tide") (str "diet")
        ≠ calculateSimilarity (str "diet") (str "tide") := by decide

/-- Witness for `C4_self_similarity` at a concrete string. -/
theorem C4_witness : str "abc" ≠ ([] : Str) ∧ calculateSimilarity (str "abc") (str "abc") = 1 :=
  ⟨by decide, C4_self_similarity (str "abc") (by decide)⟩

end FlaskCrawl
